import Mathlib

/-! mscraper: a same-host web crawler

A shallow embedding of `main.go` and a verification of its specification.

* `Store` is the visited set (`map[string]struct{}` behind a `sync.RWMutex`); both
  methods are atomic, so they are functions on the set.
* The Go standard library `net/url` is a parameter (`NetURL`): every general theorem holds
  for whatever `Parse`, `ResolveReference` and `String` do.  A concrete model of the
  library's parser (`neturl`) is used for the concrete scenarios.
* `crawl` runs in many goroutines.  It is embedded as a transition system: a state holds
  the shared store, the `sync.WaitGroup` counter, the standard streams and the pool of
  live goroutines, each at one of the program points of `crawl`.  One step runs one
  goroutine of the pool from its program point to the next; which goroutine runs is
  not determined, so a property of all reachable states holds for every interleaving.
-/

namespace Mscraper

/-! ## Store (main.go 22-47) -/

/-- Store keeps track of visited links: the key set of `VisitedLinks`. -/
structure Store where
  VisitedLinks : Finset String
deriving DecidableEq

/-- `func (s *Store) write(key string)`: `s.VisitedLinks[key] = struct{}{}` under the
write lock. -/
def Store.write (s : Store) (key : String) : Store :=
  { VisitedLinks := insert key s.VisitedLinks }

/-- `func (s *Store) read(key string) bool`: `_, ok := s.VisitedLinks[key]` under the
read lock. -/
def Store.read (s : Store) (key : String) : Bool :=
  decide (key ∈ s.VisitedLinks)

/-- The store of `main`: `make(map[string]struct{})`. -/
def Store.empty : Store := { VisitedLinks := ∅ }

/-! ## The interface to `net/url` -/

/-- The operations of the Go package `net/url` that the program calls, over an arbitrary
type `U` of parsed URLs.  `Parse` is `neturl.Parse` (`none` stands for a non-nil error),
`Str` is `(*URL).String`, `Host` and `Scheme` are the two fields the program reads. -/
structure NetURL (U : Type) where
  Parse : String → Option U
  ResolveReference : U → U → U
  Str : U → String
  Host : U → String
  Scheme : U → String

/-- The method `func (u *URL) Parse(ref string) (*URL, error)` of `net/url`: parse `ref`,
then resolve it against the receiver; it fails exactly when `Parse(ref)` fails. -/
def NetURL.ParseRef {U : Type} (lib : NetURL U) (u : U) (ref : String) : Option U :=
  (lib.Parse ref).map (lib.ResolveReference u)

/-! ## HTTPFetcher (main.go 16-20) -/

/-- The interface `HTTPFetcher`.  A fetcher may read and change the shared store and an
environment of its own (`W`: the network, its own fields); `Fetch` returns the new
environment, the new store and either the links of the page or an error. -/
structure HTTPFetcher (W : Type) where
  Fetch : W → Store → String → W × Store × Except String (List String)
  Verbose : Bool

/-! ## crawl (main.go 49-75) -/

/-- One goroutine running `crawl(url, depth, store, c, wg)`, at a program point:
* `entry`: created, body not yet started (before line 50);
* `fetch`: both guards passed (lines 52-57), about to call `c.Fetch` (line 58);
* `emit`: `c.Fetch` returned `urls` and a nil error, about to print (line 63);
* `loop`: in the `for` of lines 64-74, the hrefs listed are still to be handled. -/
inductive Task (U : Type) where
  | entry (url : U) (depth : Int)
  | fetch (url : U) (depth : Int)
  | emit (url : U) (depth : Int) (urls : List String)
  | loop (url : U) (depth : Int) (urls : List String)
deriving DecidableEq

/-- The URL a goroutine crawls. -/
def Task.url {U : Type} : Task U → U
  | .entry u _ => u
  | .fetch u _ => u
  | .emit u _ _ => u
  | .loop u _ _ => u

/-- The depth argument of a goroutine. -/
def Task.depth {U : Type} : Task U → Int
  | .entry _ d => d
  | .fetch _ d => d
  | .emit _ d _ => d
  | .loop _ d _ => d

/-- One call of `c.Fetch` made by `crawl`: the URL and depth of the calling goroutine and
what the call returned. -/
structure FetchCall (U : Type) where
  url : U
  depth : Int
  result : Except String (List String)

/-- The state shared by the goroutines of one run.  `calls` and `skipped` are history
variables (no counterpart in the source): the calls of `c.Fetch` made so far, in order, and
the number of hrefs skipped by the `continue` of line 68. -/
structure State (W U : Type) where
  world : W
  store : Store
  wg : Int
  pool : List (Task U)
  stdout : List String
  stderr : List String
  calls : List (FetchCall U)
  skipped : Nat

/-- What one step of a goroutine yields: the shared state after it, the program point the
goroutine is at next (`none` when it returned), and the goroutines it started. -/
structure Outcome (W U : Type) where
  state : State W U
  next : Option (Task U)
  spawned : List (Task U)

/-- The goroutine returns: the deferred `wg.Done()` of line 50 runs. -/
def crawl.done {W U : Type} (s : State W U) : Outcome W U :=
  { state := { s with wg := s.wg - 1 }, next := none, spawned := [] }

/-- One step of the body of `crawl`, from a program point to the next.  A step holds at
most one access to what the goroutines share besides the counter and the streams: the
`store.read` of line 55, or the call `c.Fetch` of line 58, taken as one action of the
fetcher.  One round of the loop (`wg.Add(1)`, `url.Parse(u)`, the verbose line, `go
crawl(...)`) is one step.  `depth` is a Go `int`; `depth - 1` is computed only where
`depth ≥ 0`, so it does not wrap and an integer stands for it.  The line written by
`log.Printf` is kept without the time stamp that package `log` puts in front. -/
def crawl.exec {W U : Type} (lib : NetURL U) (c : HTTPFetcher W) (s : State W U) :
    Task U → Outcome W U
  | .entry url depth =>
      if depth < 0 then crawl.done s
      else if s.store.read (lib.Str url) then crawl.done s
      else { state := s, next := some (.fetch url depth), spawned := [] }
  | .fetch url depth =>
      let r := c.Fetch s.world s.store (lib.Str url)
      let s1 : State W U :=
        { s with world := r.1, store := r.2.1,
                 calls := s.calls ++ [{ url := url, depth := depth, result := r.2.2 }] }
      match r.2.2 with
      | .error err =>
          crawl.done { s1 with stderr := s1.stderr ++
            ["ERROR: error crawling " ++ lib.Str url ++ ", err: " ++ err] }
      | .ok urls => { state := s1, next := some (.emit url depth urls), spawned := [] }
  | .emit url depth urls =>
      { state := { s with stdout := s.stdout ++ ["- " ++ lib.Str url] },
        next := some (.loop url depth urls), spawned := [] }
  | .loop _ _ [] => crawl.done s
  | .loop url depth (u :: rest) =>
      let s1 : State W U := { s with wg := s.wg + 1 }
      match lib.ParseRef url u with
      | none =>
          { state := { s1 with skipped := s1.skipped + 1 },
            next := some (.loop url depth rest), spawned := [] }
      | some parsedU =>
          { state := if c.Verbose
              then { s1 with stdout := s1.stdout ++ ["   - " ++ lib.Str parsedU] }
              else s1,
            next := some (.loop url depth rest),
            spawned := [.entry parsedU (depth - 1)] }

/-- The goroutine at position `i` of the pool takes one step; `none` when there is no such
goroutine.  It keeps its place in the pool; what it starts is appended. -/
def crawl.stepAt {W U : Type} (lib : NetURL U) (c : HTTPFetcher W) (i : Nat)
    (s : State W U) : Option (State W U) :=
  match s.pool[i]? with
  | none => none
  | some t =>
      let o := crawl.exec lib c s t
      some { o.state with
        pool := s.pool.take i ++ o.next.toList ++ s.pool.drop (i + 1) ++ o.spawned }

/-- Some goroutine of the pool takes one step. -/
def crawl.Step {W U : Type} (lib : NetURL U) (c : HTTPFetcher W) (s s' : State W U) : Prop :=
  ∃ i, crawl.stepAt lib c i s = some s'

/-- The state `s'` is reached from `s` by some interleaving of the goroutines. -/
def crawl.Reaches {W U : Type} (lib : NetURL U) (c : HTTPFetcher W) (s s' : State W U) :
    Prop :=
  Relation.ReflTransGen (crawl.Step lib c) s s'

/-- Runs the goroutines in the order a schedule gives (position in the pool, step by
step); `none` when the schedule names a position that is not in the pool. -/
def crawl.run {W U : Type} (lib : NetURL U) (c : HTTPFetcher W) :
    List Nat → State W U → Option (State W U)
  | [], s => some s
  | i :: is, s => (crawl.stepAt lib c i s).bind (crawl.run lib c is)

/-- The state in which `main` (lines 142-147) and the test call `crawl`: the counter is 1
after `wg.Add(1)`, and the only goroutine is the caller's, about to run
`crawl(url, depth, store, c, wg)`. -/
def crawl.start {W U : Type} (w : W) (store : Store) (url : U) (depth : Int) : State W U :=
  { world := w, store := store, wg := 1, pool := [.entry url depth],
    stdout := [], stderr := [], calls := [], skipped := 0 }

/-- Every goroutine has returned. -/
def State.finished {W U : Type} (s : State W U) : Prop := s.pool = []

/-- The `wg.Wait()` of line 148 returns: the counter is zero. -/
def State.waitReturns {W U : Type} (s : State W U) : Prop := s.wg = 0

/-- The steps of `crawl.stepAt` listed by the path the goroutine takes through the body
of `crawl`: the task state machine `PENDING → (DEPTH_EXHAUSTED | ALREADY_VISITED |
FETCHING → (FETCH_FAILED | FETCHED → FANNED_OUT)) → DONE`.  `crawl.step_iff_rule` shows
that the rules are exactly the steps. -/
inductive crawl.Rule {W U : Type} (lib : NetURL U) (c : HTTPFetcher W) :
    Task U → State W U → State W U → Prop where
  | depthExhausted (s : State W U) (pre post : List (Task U)) (url : U) (depth : Int) :
      s.pool = pre ++ Task.entry url depth :: post → depth < 0 →
      crawl.Rule lib c (Task.entry url depth) s { s with wg := s.wg - 1, pool := pre ++ post }
  | alreadyVisited (s : State W U) (pre post : List (Task U)) (url : U) (depth : Int) :
      s.pool = pre ++ Task.entry url depth :: post → 0 ≤ depth →
      s.store.read (lib.Str url) = true →
      crawl.Rule lib c (Task.entry url depth) s { s with wg := s.wg - 1, pool := pre ++ post }
  | fetching (s : State W U) (pre post : List (Task U)) (url : U) (depth : Int) :
      s.pool = pre ++ Task.entry url depth :: post → 0 ≤ depth →
      s.store.read (lib.Str url) = false →
      crawl.Rule lib c (Task.entry url depth) s { s with pool := pre ++ Task.fetch url depth :: post }
  | fetchFailed (s : State W U) (pre post : List (Task U)) (url : U) (depth : Int)
      (w : W) (st : Store) (err : String) :
      s.pool = pre ++ Task.fetch url depth :: post →
      c.Fetch s.world s.store (lib.Str url) = (w, st, .error err) →
      crawl.Rule lib c (Task.fetch url depth) s
        { s with world := w, store := st, wg := s.wg - 1, pool := pre ++ post,
                 calls := s.calls ++ [{ url := url, depth := depth, result := .error err }],
                 stderr := s.stderr ++
                   ["ERROR: error crawling " ++ lib.Str url ++ ", err: " ++ err] }
  | fetched (s : State W U) (pre post : List (Task U)) (url : U) (depth : Int)
      (w : W) (st : Store) (urls : List String) :
      s.pool = pre ++ Task.fetch url depth :: post →
      c.Fetch s.world s.store (lib.Str url) = (w, st, .ok urls) →
      crawl.Rule lib c (Task.fetch url depth) s
        { s with world := w, store := st, pool := pre ++ Task.emit url depth urls :: post,
                 calls := s.calls ++ [{ url := url, depth := depth, result := .ok urls }] }
  | printed (s : State W U) (pre post : List (Task U)) (url : U) (depth : Int)
      (urls : List String) :
      s.pool = pre ++ Task.emit url depth urls :: post →
      crawl.Rule lib c (Task.emit url depth urls) s
        { s with stdout := s.stdout ++ ["- " ++ lib.Str url],
                 pool := pre ++ Task.loop url depth urls :: post }
  | fannedOut (s : State W U) (pre post : List (Task U)) (url : U) (depth : Int) :
      s.pool = pre ++ Task.loop url depth [] :: post →
      crawl.Rule lib c (Task.loop url depth []) s { s with wg := s.wg - 1, pool := pre ++ post }
  | skip (s : State W U) (pre post : List (Task U)) (url : U) (depth : Int)
      (u : String) (rest : List String) :
      s.pool = pre ++ Task.loop url depth (u :: rest) :: post →
      lib.ParseRef url u = none →
      crawl.Rule lib c (Task.loop url depth (u :: rest)) s
        { s with wg := s.wg + 1, skipped := s.skipped + 1,
                 pool := pre ++ Task.loop url depth rest :: post }
  | spawn (s : State W U) (pre post : List (Task U)) (url : U) (depth : Int)
      (u : String) (rest : List String) (parsedU : U) :
      s.pool = pre ++ Task.loop url depth (u :: rest) :: post →
      lib.ParseRef url u = some parsedU →
      crawl.Rule lib c (Task.loop url depth (u :: rest)) s
        { s with wg := s.wg + 1,
                 stdout := if c.Verbose then s.stdout ++ ["   - " ++ lib.Str parsedU]
                           else s.stdout,
                 pool := pre ++ Task.loop url depth rest :: post
                           ++ [Task.entry parsedU (depth - 1)] }

/-! ## The vocabulary of the properties -/

/-- The fetcher marks the URL it is given: after `Fetch` the store is the store before it
with that URL written, as in `Crawler.Fetch` and in the fake of the test. -/
def HTTPFetcher.Marks {W : Type} (c : HTTPFetcher W) : Prop :=
  ∀ w store url, (c.Fetch w store url).2.1 = store.write url

/-- The fetcher returns, for every page and without error, the links that the function
`links` gives for the URL: its link graph. -/
def HTTPFetcher.Returns {W : Type} (c : HTTPFetcher W) (links : String → List String) :
    Prop :=
  ∀ w store url, (c.Fetch w store url).2.2 = .ok (links url)

/-- The hrefs a goroutine has received from `Fetch` and not yet handled in its loop. -/
def Task.pending {U : Type} : Task U → List String
  | .entry _ _ => []
  | .fetch _ _ => []
  | .emit _ _ urls => urls
  | .loop _ _ urls => urls

/-- Whether the goroutine has passed the guards of lines 52-57. -/
def Task.passedGuards {U : Type} : Task U → Bool
  | .entry _ _ => false
  | _ => true

/-- Whether the goroutine stands between its visited-check and its call of `Fetch`. -/
def Task.atFetch {U : Type} : Task U → Bool
  | .fetch _ _ => true
  | _ => false

/-- One link hop of a run: `u` is a page on which `Fetch` was called, the call returned
the href `href` among its links, and `v` is that href resolved against `u` by
`u.Parse(href)`, as line 66 does. -/
def crawl.Hop {U : Type} (lib : NetURL U) (calls : List (FetchCall U)) (u v : U) : Prop :=
  ∃ call ∈ calls, call.url = u ∧
    ∃ urls, call.result = .ok urls ∧ ∃ href ∈ urls, lib.ParseRef u href = some v

/-- The URL `u` is reached from the seed by a chain of `n` link hops of the run. -/
inductive crawl.Hops {U : Type} (lib : NetURL U) (calls : List (FetchCall U)) (seed : U) :
    Nat → U → Prop where
  | seed : crawl.Hops lib calls seed 0 seed
  | hop {n : Nat} {u v : U} :
      crawl.Hops lib calls seed n u → crawl.Hop lib calls u v →
      crawl.Hops lib calls seed (n + 1) v

/-- A step under sequential access to the store: a goroutine takes its first step, the
one with the visited-check of line 55, only when no goroutine stands between its own
check and its call of `Fetch`.  All other steps are free. -/
def crawl.SeqStep {W U : Type} (lib : NetURL U) (c : HTTPFetcher W) (s s' : State W U) :
    Prop :=
  ∃ i t, s.pool[i]? = some t ∧ crawl.stepAt lib c i s = some s' ∧
    (t.passedGuards = false → ∀ x ∈ s.pool, x.atFetch = false)

/-- The state `s'` is reached from `s` by an interleaving with sequential access to the
store. -/
def crawl.SeqReaches {W U : Type} (lib : NetURL U) (c : HTTPFetcher W) (s s' : State W U) :
    Prop :=
  Relation.ReflTransGen (crawl.SeqStep lib c) s s'

/-- Runs a schedule like `crawl.run`, and refuses it (`none`) when a step breaks
sequential access. -/
def crawl.seqRun {W U : Type} (lib : NetURL U) (c : HTTPFetcher W) :
    List Nat → State W U → Option (State W U)
  | [], s => some s
  | i :: is, s =>
      match s.pool[i]? with
      | none => none
      | some t =>
          if t.passedGuards = false ∧ s.pool.any Task.atFetch = true then none
          else (crawl.stepAt lib c i s).bind (crawl.seqRun lib c is)

/-- The href `href`, returned by a call of `Fetch` on the page `u` made at depth `k` and
resolved to `v`, is accounted for by a pool and a store: a goroutine of that page still has
the href to handle, or the depth `k - 1` of the child is negative, or the URL of the child
is in the store, or the child's goroutine is in the pool and has not called `Fetch` yet. -/
def crawl.Accounted {U : Type} (lib : NetURL U) (pool : List (Task U)) (store : Store)
    (u : U) (k : Int) (href : String) (v : U) : Prop :=
  (∃ t ∈ pool, t.url = u ∧ t.depth = k ∧ href ∈ t.pending) ∨
  k - 1 < 0 ∨
  lib.Str v ∈ store.VisitedLinks ∨
  Task.entry v (k - 1) ∈ pool ∨
  Task.fetch v (k - 1) ∈ pool

/-- The rank of a goroutine, for termination: how many levels of the task tree can still
grow below it (a goroutine past the guards can still start children, which return at
once when their depth is negative), then the program point, then the number of hrefs not
yet handled. -/
def Task.rank {U : Type} : Task U → Nat × Nat × Nat
  | .entry _ d => ((d + 1).toNat, 3, 0)
  | .fetch _ d => (max (d + 1).toNat 1, 2, 0)
  | .emit _ d urls => (max (d + 1).toNat 1, 1, urls.length)
  | .loop _ d urls => (max (d + 1).toNat 1, 0, urls.length)

/-- The lexicographic order on ranks. -/
def rankLt : Nat × Nat × Nat → Nat × Nat × Nat → Prop :=
  Prod.Lex (fun a b => a < b) (Prod.Lex (fun a b => a < b) (fun a b => a < b))

/-- The multiset of the ranks of the goroutines of a state. -/
def State.ranks {W U : Type} (s : State W U) : Multiset (Nat × Nat × Nat) :=
  (s.pool.map Task.rank : List (Nat × Nat × Nat))

/-! ## Crawler (main.go 28-34, 77-128) -/

/-- The element tree of `golang.org/x/net/html`: a node has a type, its data (the tag
name of an element), its attributes, and its children in order (`FirstChild`, then
`NextSibling` until nil). -/
inductive html.NodeType where
  | ErrorNode | TextNode | DocumentNode | ElementNode | CommentNode | DoctypeNode | RawNode
deriving DecidableEq

/-- An attribute `html.Attribute` of an element. -/
structure html.Attribute where
  Namespace : String
  Key : String
  Val : String
deriving DecidableEq

/-- A node `html.Node` with the subtrees below it. -/
inductive html.Node where
  | mk (Typ : html.NodeType) (Data : String) (Attr : List html.Attribute)
      (children : List html.Node)

/-- The struct `Crawler`; its field `store` points to the shared store, which the
embedding passes as an argument. -/
structure Crawler where
  host : String
  scheme : String
  verbose : Bool

/-- `func (c *Crawler) processLink(link string) (bool, string)`. -/
def Crawler.processLink {U : Type} (lib : NetURL U) (c : Crawler) (link : String) :
    Bool × String :=
  match lib.Parse link with
  | none => (false, "")
  | some r => if lib.Host r = c.host ∨ lib.Scheme r = "" then (true, link) else (false, "")

/-- The inner loop of `findLinks` (lines 114-122): the first attribute with key `href`
decides, then the loop breaks. -/
def Crawler.findHref {U : Type} (lib : NetURL U) (c : Crawler) :
    List html.Attribute → List String → List String
  | [], foundLinks => foundLinks
  | a :: more, foundLinks =>
      if a.Key = "href" then
        (if (c.processLink lib a.Val).1 then foundLinks ++ [(c.processLink lib a.Val).2]
         else foundLinks)
      else Crawler.findHref lib c more foundLinks

mutual
/-- `func (c *Crawler) findLinks(node *html.Node, foundLinks []string) []string`. -/
def Crawler.findLinks {U : Type} (lib : NetURL U) (c : Crawler) :
    html.Node → List String → List String
  | .mk typ data attr children, foundLinks =>
      Crawler.findLinksFrom lib c children
        (if typ = html.NodeType.ElementNode ∧ data = "a"
         then Crawler.findHref lib c attr foundLinks else foundLinks)
/-- The loop of lines 124-126 over the children from `child` on. -/
def Crawler.findLinksFrom {U : Type} (lib : NetURL U) (c : Crawler) :
    List html.Node → List String → List String
  | [], foundLinks => foundLinks
  | child :: siblings, foundLinks =>
      Crawler.findLinksFrom lib c siblings (Crawler.findLinks lib c child foundLinks)
end

/-- What `Crawler.Fetch` gets from outside the repository: `http.Get` (its answer may
depend on the state `W` of the network and change it) and `html.Parse` on the body. -/
structure Web (W Body : Type) where
  Get : W → String → W × Except String Body
  ParseHTML : Body → Except String html.Node

/-- `func (c *Crawler) processPage(page io.Reader) (urls []string, err error)`. -/
def Crawler.processPage {U W Body : Type} (lib : NetURL U) (web : Web W Body) (c : Crawler)
    (page : Body) : Except String (List String) :=
  match web.ParseHTML page with
  | .error err => .error err
  | .ok doc => .ok (c.findLinks lib doc [])

/-- `func (c *Crawler) Fetch(url string) (urls []string, err error)`: the URL is written
to the store, then the page is requested. -/
def Crawler.Fetch {U W Body : Type} (lib : NetURL U) (web : Web W Body) (c : Crawler)
    (w : W) (store : Store) (url : String) : W × Store × Except String (List String) :=
  let store1 := store.write url
  match web.Get w url with
  | (w1, .error err) => (w1, store1, .error err)
  | (w1, .ok body) => (w1, store1, c.processPage lib web body)

/-- `Crawler` as an `HTTPFetcher`: `Fetch` above and `Verbose`, which returns the field. -/
def Crawler.fetcher {U W Body : Type} (lib : NetURL U) (web : Web W Body) (c : Crawler) :
    HTTPFetcher W :=
  { Fetch := c.Fetch lib web, Verbose := c.verbose }

/-- The `fakeCrawler` of main_test.go: `Fetch` writes the URL to the store and returns
`["/home", "/faq"]` with a nil error; `Verbose` is false in `Test_crawl`. -/
def fakeCrawler : HTTPFetcher Unit :=
  { Fetch := fun w store url => (w, store.write url, .ok ["/home", "/faq"]),
    Verbose := false }

/-- A fetcher like the `fakeCrawler` of the test that returns the hrefs `urls` for every
page. -/
def stubCrawler (urls : List String) : HTTPFetcher Unit :=
  { Fetch := fun w store url => (w, store.write url, .ok urls), Verbose := false }

/-- A fetcher whose `Fetch` writes the URL to the store and then fails, as `Crawler.Fetch`
does when `http.Get` fails. -/
def failingCrawler (err : String) : HTTPFetcher Unit :=
  { Fetch := fun w store url => (w, store.write url, .error err), Verbose := false }

/-- The function `main` after flag parsing (lines 136-147): `none` when the start URL is
refused ("Invalid start url"), else the crawler and the state in which `crawl` starts. -/
def main {U W : Type} (lib : NetURL U) (w : W) (maxDepth : Int) (startUrl : String)
    (verbose : Bool) : Option (Crawler × State W U) :=
  match lib.Parse startUrl with
  | none => none
  | some l =>
      if startUrl = "" ∨ lib.Host l = "" ∨ lib.Scheme l = "" then none
      else some ({ host := lib.Host l, scheme := lib.Scheme l, verbose := verbose },
                 crawl.start w Store.empty l maxDepth)

/-! ## A model of Go's `net/url`

The package is not part of the repository; this is a model of `url.Parse`,
`(*URL).ResolveReference` and `(*URL).String` written after the Go sources, on lists of
characters.  Parsing follows the library step by step (fragment, control characters,
scheme, query, opaque part, authority, path); two things are left out: the host, path and
fragment are kept as written (the library decodes percent escapes when it parses and
encodes again when it prints), and a zone in an IPv6 literal is not treated.  The model is
used for the concrete scenarios only. -/

namespace neturl

/-- The fields of `url.URL`; `Path` and `Fragment` hold the escaped forms
(`EscapedPath()`, `EscapedFragment()`), `User` the user information as written. -/
structure URL where
  Scheme : String
  Opaque : String
  User : Option String
  Host : String
  Path : String
  ForceQuery : Bool
  RawQuery : String
  Fragment : String
  OmitHost : Bool
deriving DecidableEq, Repr

/-- `strings.Cut(s, sep)` for a separator of one character: the text before the first
`sep` and, when there is one, the text after it. -/
def cut (sep : Char) : List Char → List Char × Option (List Char)
  | [] => ([], none)
  | c :: cs =>
      if c = sep then ([], some cs)
      else ((c :: (cut sep cs).1), (cut sep cs).2)

/-- `strings.LastIndex(s, sep)` for a separator of one character. -/
def lastIndex (sep : Char) : List Char → Option Nat
  | [] => none
  | c :: cs =>
      match lastIndex sep cs with
      | some i => some (i + 1)
      | none => if c = sep then some 0 else none

/-- `strings.HasPrefix(s, p)`. -/
def startsWith (p s : List Char) : Bool := s.take p.length == p

/-- `stringContainsCTLByte`: a byte below 0x20 or the byte 0x7f. -/
def stringContainsCTLByte (s : List Char) : Bool :=
  s.any fun c => decide (c.toNat < 32) || decide (c.toNat = 127)

/-- The loop of `getScheme` from position `i` on: `(scheme, rest)`, or `none` for the
error "missing protocol scheme". -/
def getSchemeFrom (raw : List Char) : Nat → List Char → Option (List Char × List Char)
  | _, [] => some ([], raw)
  | i, c :: cs =>
      if c.isAlpha then getSchemeFrom raw (i + 1) cs
      else if c.isDigit || c == '+' || c == '-' || c == '.' then
        (if i = 0 then some ([], raw) else getSchemeFrom raw (i + 1) cs)
      else if c == ':' then
        (if i = 0 then none else some (raw.take i, cs))
      else some ([], raw)

/-- `getScheme(rawURL)`. -/
def getScheme (raw : List Char) : Option (List Char × List Char) :=
  getSchemeFrom raw 0 raw

/-- `ishex`. -/
def ishex (c : Char) : Bool :=
  c.isDigit || (decide ('a' ≤ c) && decide (c ≤ 'f')) || (decide ('A' ≤ c) && decide (c ≤ 'F'))

/-- Whether `unescape(s, mode)` succeeds for the path and fragment modes: every `%` is
followed by two hexadecimal digits. -/
def validEscapes : List Char → Bool
  | [] => true
  | c :: cs =>
      if c = '%' then
        match cs with
        | a :: b :: rest => ishex a && ishex b && validEscapes rest
        | _ => false
      else validEscapes cs

/-- A character that `shouldEscape(c, encodeHost)` lets stand in a host (bytes from 0x80
on are not checked by `unescape`). -/
def hostChar (c : Char) : Bool :=
  decide (128 ≤ c.toNat) || c.isAlphanum ||
    "!$&()*+,;=:[]<>-_.~".data.contains c || c.toNat == 39 || c.toNat == 34

/-- Whether `unescape(s, encodeHost)` succeeds: an escape must be two hexadecimal digits
and stand for a byte from 0x80 on (or be `%25`); any other character must be a host
character. -/
def validHostEscapes : List Char → Bool
  | [] => true
  | c :: cs =>
      if c = '%' then
        match cs with
        | a :: b :: rest =>
            ishex a && ishex b &&
              (!(a.isDigit && decide (a.toNat < 56)) || (a == '2' && b == '5')) &&
              validHostEscapes rest
        | _ => false
      else hostChar c && validHostEscapes cs

/-- `validOptionalPort`: empty, or a colon and digits. -/
def validOptionalPort : List Char → Bool
  | [] => true
  | c :: cs => c == ':' && cs.all Char.isDigit

/-- Whether `parseHost(host)` succeeds (the host is kept as written). -/
def validHost (host : List Char) : Bool :=
  if startsWith ['['] host then
    match lastIndex ']' host with
    | none => false
    | some i => validOptionalPort (host.drop (i + 1)) && validHostEscapes host
  else
    (match lastIndex ':' host with
      | some i => validOptionalPort (host.drop i)
      | none => true) && validHostEscapes host

/-- `validUserinfo`. -/
def validUserinfo (s : List Char) : Bool :=
  s.all fun c => c.isAlphanum || "-._:~!$&()*+,;=%@".data.contains c || c.toNat == 39

/-- `parseAuthority(authority)`: the user information and the host, or `none` for an
error. -/
def parseAuthority (authority : List Char) : Option (Option String × String) :=
  match lastIndex '@' authority with
  | none => if validHost authority then some (none, String.mk authority) else none
  | some i =>
      let host := authority.drop (i + 1)
      let userinfo := authority.take i
      if validHost host && validUserinfo userinfo && validEscapes userinfo
      then some (some (String.mk userinfo), String.mk host) else none

/-- The unexported `parse(rawURL, false)`: a URL without its fragment. -/
def parseNoFragment (rawURL : List Char) : Option URL :=
  if stringContainsCTLByte rawURL then none
  else if rawURL = ['*'] then
    some { Scheme := "", Opaque := "", User := none, Host := "", Path := "*",
           ForceQuery := false, RawQuery := "", Fragment := "", OmitHost := false }
  else
    match getScheme rawURL with
    | none => none
    | some (scheme0, rest0) =>
      let scheme := scheme0.map Char.toLower
      let forceQuery := rest0.getLast? == some '?' && rest0.count '?' == 1
      let rest1 := if forceQuery then rest0.dropLast else (cut '?' rest0).1
      let rawQuery := if forceQuery then [] else ((cut '?' rest0).2).getD []
      let base : URL :=
        { Scheme := String.mk scheme, Opaque := "", User := none, Host := "", Path := "",
          ForceQuery := forceQuery, RawQuery := String.mk rawQuery, Fragment := "",
          OmitHost := false }
      if !startsWith ['/'] rest1 && !scheme.isEmpty then
        some { base with Opaque := String.mk rest1 }
      else if !startsWith ['/'] rest1 && (cut '/' rest1).1.contains ':' then none
      else if (!scheme.isEmpty || !startsWith ['/', '/', '/'] rest1)
          && startsWith ['/', '/'] rest1 then
        let authority := (cut '/' (rest1.drop 2)).1
        let path := (rest1.drop 2).drop authority.length
        match parseAuthority authority with
        | none => none
        | some (user, host) =>
            if validEscapes path
            then some { base with User := user, Host := host, Path := String.mk path }
            else none
      else if validEscapes rest1 then
        some { base with Path := String.mk rest1,
                         OmitHost := !scheme.isEmpty && startsWith ['/'] rest1 }
      else none

/-- `url.Parse(rawURL)`: `none` stands for a non-nil error. -/
def Parse (rawURL : String) : Option URL :=
  match parseNoFragment (cut '#' rawURL.data).1 with
  | none => none
  | some u =>
      match (cut '#' rawURL.data).2 with
      | none => some u
      | some frag =>
          if frag.isEmpty then some u
          else if validEscapes frag then some { u with Fragment := String.mk frag }
          else none

/-- The pieces of a path between slashes, as the `strings.Cut` loop of `resolvePath`
meets them. -/
def segments : List Char → List (List Char)
  | [] => [[]]
  | c :: cs =>
      if c = '/' then [] :: segments cs
      else match segments cs with
        | [] => [[c]]
        | seg :: more => (c :: seg) :: more

/-- One round of the loop of `resolvePath`: `dst` is the text written after the leading
slash, `first` the flag of the same name. -/
def resolveStep (acc : List Char × Bool) (elem : List Char) : List Char × Bool :=
  if elem = ['.'] then (acc.1, false)
  else if elem = ['.', '.'] then
    match lastIndex '/' acc.1 with
    | none => ([], true)
    | some index => (acc.1.take index, acc.2)
  else ((if acc.2 then acc.1 else acc.1 ++ ['/']) ++ elem, false)

/-- `resolvePath(base, ref)`: the reference path against the base path, dot segments
removed. -/
def resolvePath (base ref : List Char) : List Char :=
  let full :=
    match ref with
    | [] => base
    | c :: _ =>
        if c = '/' then ref
        else base.take ((match lastIndex '/' base with | some i => i + 1 | none => 0)) ++ ref
  if full.isEmpty then []
  else
    let elems := segments full
    let dst := (elems.foldl resolveStep ([], true)).1
    let last := elems.getLast?.getD []
    let r := '/' :: (if last = ['.'] ∨ last = ['.', '.'] then dst ++ ['/'] else dst)
    match r with
    | _ :: '/' :: more => '/' :: more
    | _ => r

/-- `func (u *URL) ResolveReference(ref *URL) *URL`. -/
def ResolveReference (u ref : URL) : URL :=
  let url : URL := if ref.Scheme = "" then { ref with Scheme := u.Scheme } else ref
  if ref.Scheme ≠ "" ∨ ref.Host ≠ "" ∨ ref.User ≠ none then
    { url with Path := String.mk (resolvePath ref.Path.data []) }
  else if ref.Opaque ≠ "" then
    { url with User := none, Host := "", Path := "" }
  else
    let url1 : URL :=
      if ref.Path = "" ∧ ref.ForceQuery = false ∧ ref.RawQuery = "" then
        { url with RawQuery := u.RawQuery,
                   Fragment := if ref.Fragment = "" then u.Fragment else url.Fragment }
      else url
    if ref.Path = "" ∧ u.Opaque ≠ "" then
      { url1 with Opaque := u.Opaque, User := none, Host := "", Path := "" }
    else
      { url1 with Host := u.Host, User := u.User,
                  Path := String.mk (resolvePath u.Path.data ref.Path.data) }

/-- `func (u *URL) String() string`. -/
def URL.String (u : URL) : String :=
  let scheme := if u.Scheme ≠ "" then u.Scheme ++ ":" else ""
  let body :=
    if u.Opaque ≠ "" then u.Opaque
    else
      let authority :=
        if u.Scheme ≠ "" ∨ u.Host ≠ "" ∨ u.User ≠ none then
          if u.OmitHost ∧ u.Host = "" ∧ u.User = none then ""
          else
            (if u.Host ≠ "" ∨ u.Path ≠ "" ∨ u.User ≠ none then "//" else "") ++
            (match u.User with | some ui => ui ++ "@" | none => "") ++ u.Host
        else ""
      let slash := if u.Path ≠ "" ∧ ¬ startsWith ['/'] u.Path.data ∧ u.Host ≠ "" then "/" else ""
      let dot :=
        if scheme = "" ∧ authority = "" ∧ slash = "" ∧ (cut '/' u.Path.data).1.contains ':'
        then "./" else ""
      authority ++ slash ++ dot ++ u.Path
  let query := if u.ForceQuery ∨ u.RawQuery ≠ "" then "?" ++ u.RawQuery else ""
  let fragment := if u.Fragment ≠ "" then "#" ++ u.Fragment else ""
  scheme ++ body ++ query ++ fragment

/-- The model as an instance of the interface the program is verified against. -/
def lib : NetURL URL :=
  { Parse := Parse, ResolveReference := ResolveReference, Str := URL.String,
    Host := URL.Host, Scheme := URL.Scheme }

/-- The seed of `Test_crawl`: what `neturl.Parse("https://example.com")` returns. -/
def exampleSeed : URL :=
  { Scheme := "https", Opaque := "", User := none, Host := "example.com", Path := "",
    ForceQuery := false, RawQuery := "", Fragment := "", OmitHost := false }

end neturl

/-! ## The vocabulary of the store and of link extraction -/

/-- A call of one of the two methods of `Store`. -/
inductive Store.Call where
  | write (key : String)
  | read (key : String)
deriving DecidableEq

/-- The store after a call and what the call returns: `write` returns nothing, `read`
returns its answer and assigns nothing to the map. -/
def Store.call (s : Store) : Store.Call → Store × Option Bool
  | .write key => (s.write key, none)
  | .read key => (s, some (s.read key))

/-- The store after a sequence of calls, made one after the other. -/
def Store.calls (s : Store) : List Store.Call → Store
  | [] => s
  | call :: more => Store.calls (s.call call).1 more

mutual
/-- The nodes of a tree in document order: the node, then its subtrees from left to
right (pre-order, depth first). -/
def html.Node.preorder : html.Node → List html.Node
  | .mk typ data attr children =>
      html.Node.mk typ data attr children :: html.Node.preorderFrom children
/-- The nodes of a list of sibling trees in document order. -/
def html.Node.preorderFrom : List html.Node → List html.Node
  | [] => []
  | child :: siblings => html.Node.preorder child ++ html.Node.preorderFrom siblings
end

/-- An anchor: an element node whose tag is `a`. -/
def html.Node.isAnchor : html.Node → Bool
  | .mk typ data _ _ => decide (typ = html.NodeType.ElementNode ∧ data = "a")

/-- The values of all the attributes of a node whose key is `href`, in attribute order. -/
def html.Node.hrefs : html.Node → List String
  | .mk _ _ attr _ => (attr.filter fun a => a.Key = "href").map fun a => a.Val

/-- The value of the first attribute of a node whose key is `href`. -/
def html.Node.firstHref : html.Node → Option String
  | .mk _ _ attr _ => (attr.find? fun a => a.Key = "href").map fun a => a.Val

/-- Link extraction as the specification words it: the href attribute values of the
anchors of the tree that `processLink` accepts, in document order. -/
def Crawler.acceptedHrefs {U : Type} (lib : NetURL U) (c : Crawler) (node : html.Node) :
    List String :=
  ((node.preorder.filter html.Node.isAnchor).flatMap html.Node.hrefs).filter
    fun href => (c.processLink lib href).1

/-- Link extraction with the first href attribute of each anchor only: those of them that
`processLink` accepts, in document order. -/
def Crawler.acceptedFirstHrefs {U : Type} (lib : NetURL U) (c : Crawler)
    (node : html.Node) : List String :=
  ((node.preorder.filter html.Node.isAnchor).filterMap html.Node.firstHref).filter
    fun href => (c.processLink lib href).1

/-- An element node. -/
def html.element (tag : String) (attr : List html.Attribute) (children : List html.Node) :
    html.Node :=
  html.Node.mk html.NodeType.ElementNode tag attr children

/-- A text node. -/
def html.text (data : String) : html.Node :=
  html.Node.mk html.NodeType.TextNode data [] []

/-- The tree that `html.Parse` builds for the body of the tests,
`<p>Links:</p><ul><li><a href="foo">Foo</a><li><a href="/bar/baz">BarBaz</a></ul>`: the
document node, `html` with an empty `head`, and the fragment inside `body`. -/
def html.testTree : html.Node :=
  html.Node.mk html.NodeType.DocumentNode "" []
    [html.element "html" []
      [html.element "head" [] [],
       html.element "body" []
        [html.element "p" [] [html.text "Links:"],
         html.element "ul" []
          [html.element "li" []
            [html.element "a" [{ Namespace := "", Key := "href", Val := "foo" }]
              [html.text "Foo"]],
           html.element "li" []
            [html.element "a" [{ Namespace := "", Key := "href", Val := "/bar/baz" }]
              [html.text "BarBaz"]]]]]]

/-- A page with one anchor that carries two href attributes, the first to a foreign host,
the second relative: `<a href="https://other.com/" href="foo">`. -/
def html.twoHrefTree : html.Node :=
  html.element "a"
    [{ Namespace := "", Key := "href", Val := "https://other.com/" },
     { Namespace := "", Key := "href", Val := "foo" }] []

/-! ## The vocabulary of coverage -/

/-- A fetcher for a link graph: `Fetch` writes the URL to the store and returns the links
that `links` gives for it, without error. -/
def linkCrawler (links : String → List String) : HTTPFetcher Unit :=
  { Fetch := fun w store url => (w, store.write url, .ok (links url)), Verbose := false }

/-- The URL `v` is reached from the seed by a chain of `n` links of the link graph, each
resolved against the page that contains it. -/
inductive crawl.LinkChain {U : Type} (lib : NetURL U) (links : String → List String)
    (seed : U) : Nat → U → Prop where
  | seed : crawl.LinkChain lib links seed 0 seed
  | link {n : Nat} {u v : U} {href : String} :
      crawl.LinkChain lib links seed n u → href ∈ links (lib.Str u) →
      lib.ParseRef u href = some v → crawl.LinkChain lib links seed (n + 1) v

/-- A link graph on `example.com`: the seed links to `/a` and `/b`, `/a` links to `/b`,
and `/b` links to `/c`. -/
def diamondLinks (url : String) : List String :=
  if url = "https://example.com" then ["/a", "/b"]
  else if url = "https://example.com/a" then ["/b"]
  else if url = "https://example.com/b" then ["/c"]
  else []

/-- A network for `Crawler.Fetch` in which only the seed answers: `http.Get` returns a
page with two links to `/home` for `https://example.com` and fails for every other URL,
with an error that reads as the `*url.Error` of `http.Get` does (`Get`, the URL in
quotes, the cause); the body is the parsed tree itself. -/
def flakyWeb : Web Unit html.Node :=
  { Get := fun w url =>
      if url = "https://example.com" then
        (w, .ok (html.element "body" []
          [html.element "a" [{ Namespace := "", Key := "href", Val := "/home" }] [],
           html.element "a" [{ Namespace := "", Key := "href", Val := "/home" }] []]))
      else (w, .error ("Get \"" ++ url ++
        "\": dial tcp 93.184.216.34:443: connect: connection refused")),
    ParseHTML := fun body => .ok body }

/-! ## The steps of `Crawler.Fetch` (main.go 77-86)

`Crawler.Fetch` above gives what a call returns and the store and the network it leaves.
The order in which the body touches the store and the network is kept by the same body
taken statement by statement. -/

/-- The program points of the body of `Crawler.Fetch`: before `c.store.write(url)` (line
78), before `http.Get(url)` (line 79), before `c.processPage(res.Body)` (line 84) with the
body of the response, and after the return, with what is returned. -/
inductive Crawler.Fetch.Point (Body : Type) where
  | write
  | get
  | processPage (body : Body)
  | returned (result : Except String (List String))

/-- The network and the store while a call of `Crawler.Fetch` runs, and the program point
the call is at. -/
structure Crawler.Fetch.State (W Body : Type) where
  world : W
  store : Store
  point : Crawler.Fetch.Point Body

/-- The call `c.Fetch(url)` is entered: nothing of its body has run. -/
def Crawler.Fetch.start {W Body : Type} (w : W) (store : Store) :
    Crawler.Fetch.State W Body :=
  { world := w, store := store, point := .write }

/-- One statement of the body of `Crawler.Fetch`: line 78 writes the URL to the store,
line 79 makes the request (lines 80-82 return its error), line 84 parses the body and
collects the links; `none` once the call has returned. -/
def Crawler.Fetch.step {U W Body : Type} (lib : NetURL U) (web : Web W Body) (c : Crawler)
    (url : String) (s : Crawler.Fetch.State W Body) : Option (Crawler.Fetch.State W Body) :=
  match s.point with
  | .write => some { s with store := s.store.write url, point := .get }
  | .get =>
      match web.Get s.world url with
      | (w1, .error err) => some { s with world := w1, point := .returned (.error err) }
      | (w1, .ok body) => some { s with world := w1, point := .processPage body }
  | .processPage body => some { s with point := .returned (c.processPage lib web body) }
  | .returned _ => none

/-- Runs the body of `Crawler.Fetch` for at most `fuel` statements. -/
def Crawler.Fetch.run {U W Body : Type} (lib : NetURL U) (web : Web W Body) (c : Crawler)
    (url : String) : Nat → Crawler.Fetch.State W Body → Crawler.Fetch.State W Body
  | 0, s => s
  | fuel + 1, s =>
      match Crawler.Fetch.step lib web c url s with
      | none => s
      | some s1 => Crawler.Fetch.run lib web c url fuel s1

/-- The state `s1` is reached from `s` by statements of the body of `Crawler.Fetch`. -/
def Crawler.Fetch.Reaches {U W Body : Type} (lib : NetURL U) (web : Web W Body)
    (c : Crawler) (url : String) (s s1 : Crawler.Fetch.State W Body) : Prop :=
  Relation.ReflTransGen (fun a b => Crawler.Fetch.step lib web c url a = some b) s s1

/-! ## The transition system -/

section Machine

variable {W U : Type} {lib : NetURL U} {c : HTTPFetcher W}

/-- A position of the pool splits it around the goroutine standing there. -/
theorem pool_split {l : List (Task U)} {i : Nat} {t : Task U} (h : l[i]? = some t) :
    l = l.take i ++ t :: l.drop (i + 1) := by
  induction l generalizing i with
  | nil => simp at h
  | cons a l ih =>
    cases i with
    | zero => simp at h; simp [h]
    | succ i => simp at h; simp; exact ih h

/-- A goroutine in the middle of the pool stands at the position after those before it. -/
theorem pool_at (pre post : List (Task U)) (t : Task U) :
    (pre ++ t :: post)[pre.length]? = some t := by
  induction pre with
  | nil => simp
  | cons a pre ih => simpa using ih

/-- The step of the goroutine `t` at position `i` is one of the rules. -/
theorem crawl.rule_of_stepAt {i : Nat} {t : Task U} {s s' : State W U}
    (ht : s.pool[i]? = some t) (hi : crawl.stepAt lib c i s = some s') :
    crawl.Rule lib c t s s' := by
  unfold crawl.stepAt at hi
  simp only [ht, Option.some.injEq] at hi
  have hp := pool_split ht
  subst hi
  cases t with
  | entry url depth =>
    by_cases hd : depth < 0
    · simpa [crawl.exec, crawl.done, hd] using
        crawl.Rule.depthExhausted s _ _ url depth hp hd
    · by_cases hr : s.store.read (lib.Str url) = true
      · simpa [crawl.exec, crawl.done, hd, hr] using
          crawl.Rule.alreadyVisited s _ _ url depth hp (not_lt.mp hd) hr
      · simpa [crawl.exec, crawl.done, hd, hr] using
          crawl.Rule.fetching s _ _ url depth hp (not_lt.mp hd) (by simpa using hr)
  | fetch url depth =>
    rcases hf : c.Fetch s.world s.store (lib.Str url) with ⟨w, st, r⟩
    cases r with
    | error err =>
      simpa [crawl.exec, crawl.done, hf] using
        crawl.Rule.fetchFailed s _ _ url depth w st err hp hf
    | ok urls =>
      simpa [crawl.exec, crawl.done, hf] using
        crawl.Rule.fetched s _ _ url depth w st urls hp hf
  | emit url depth urls =>
    simpa [crawl.exec] using crawl.Rule.printed s _ _ url depth urls hp
  | loop url depth urls =>
    cases urls with
    | nil => simpa [crawl.exec, crawl.done] using crawl.Rule.fannedOut s _ _ url depth hp
    | cons u rest =>
      cases hu : lib.ParseRef url u with
      | none =>
        simpa [crawl.exec, hu] using crawl.Rule.skip s _ _ url depth u rest hp hu
      | some parsedU =>
        have := crawl.Rule.spawn (c := c) s _ _ url depth u rest parsedU hp hu
        by_cases hv : c.Verbose = true
        · simpa [crawl.exec, hu, hv] using this
        · simpa [crawl.exec, hu, hv] using this

/-- Every step of the machine is one of the rules. -/
theorem crawl.rule_of_step {s s' : State W U} (h : crawl.Step lib c s s') :
    ∃ t, crawl.Rule lib c t s s' := by
  obtain ⟨i, hi⟩ := h
  cases ht : s.pool[i]? with
  | none => simp [crawl.stepAt, ht] at hi
  | some t => exact ⟨t, crawl.rule_of_stepAt ht hi⟩

/-- The step of a goroutine that stands in the middle of the pool. -/
theorem crawl.stepAt_mid (lib : NetURL U) (c : HTTPFetcher W) (s : State W U)
    (pre post : List (Task U)) (t : Task U)
    (hp : s.pool = pre ++ t :: post) :
    crawl.stepAt lib c pre.length s =
      some { (crawl.exec lib c s t).state with
        pool := pre ++ (crawl.exec lib c s t).next.toList ++ post
                  ++ (crawl.exec lib c s t).spawned } := by
  have h1 : s.pool[pre.length]? = some t := by rw [hp]; exact pool_at pre post t
  have h2 : s.pool.take pre.length = pre := by rw [hp]; simp
  have h3 : s.pool.drop (pre.length + 1) = post := by
    rw [hp, List.drop_append_eq_append_drop]; simp
  simp only [crawl.stepAt, h1, h2, h3]

/-- Every rule is a step of the machine: the goroutine that moves stands at position
`pre.length`. -/
theorem crawl.step_of_rule {t : Task U} {s s' : State W U} (h : crawl.Rule lib c t s s') :
    crawl.Step lib c s s' := by
  cases h with
  | @depthExhausted _ pre post url depth hp hd =>
    exact ⟨pre.length, by rw [crawl.stepAt_mid lib c s pre post _ hp]; simp [crawl.exec, crawl.done, hd]⟩
  | @alreadyVisited _ pre post url depth hp hd hr =>
    exact ⟨pre.length, by
      rw [crawl.stepAt_mid lib c s pre post _ hp]; simp [crawl.exec, crawl.done, not_lt.mpr hd, hr]⟩
  | @fetching _ pre post url depth hp hd hr =>
    exact ⟨pre.length, by
      rw [crawl.stepAt_mid lib c s pre post _ hp]; simp [crawl.exec, not_lt.mpr hd, hr]⟩
  | @fetchFailed _ pre post url depth w st err hp hf =>
    exact ⟨pre.length, by
      rw [crawl.stepAt_mid lib c s pre post _ hp]; simp [crawl.exec, crawl.done, hf]⟩
  | @fetched _ pre post url depth w st urls hp hf =>
    exact ⟨pre.length, by rw [crawl.stepAt_mid lib c s pre post _ hp]; simp [crawl.exec, hf]⟩
  | @printed _ pre post url depth urls hp =>
    exact ⟨pre.length, by rw [crawl.stepAt_mid lib c s pre post _ hp]; simp [crawl.exec]⟩
  | @fannedOut _ pre post url depth hp =>
    exact ⟨pre.length, by rw [crawl.stepAt_mid lib c s pre post _ hp]; simp [crawl.exec, crawl.done]⟩
  | @skip _ pre post url depth u rest hp hu =>
    exact ⟨pre.length, by rw [crawl.stepAt_mid lib c s pre post _ hp]; simp [crawl.exec, hu]⟩
  | @spawn _ pre post url depth u rest parsedU hp hu =>
    refine ⟨pre.length, ?_⟩
    rw [crawl.stepAt_mid lib c s pre post _ hp]
    by_cases hv : c.Verbose = true <;> simp [crawl.exec, hu, hv]

/-- The rules are exactly the steps of the machine. -/
theorem crawl.step_iff_rule {s s' : State W U} :
    crawl.Step lib c s s' ↔ ∃ t, crawl.Rule lib c t s s' :=
  ⟨crawl.rule_of_step, fun ⟨_, h⟩ => crawl.step_of_rule h⟩

/-- A property that holds at the start and is kept by every rule holds in every state
that is reached. -/
theorem crawl.Reaches.invariant {P : State W U → Prop} {s0 s : State W U}
    (h : crawl.Reaches lib c s0 s) (h0 : P s0)
    (hstep : ∀ a b t, crawl.Reaches lib c s0 a → P a → crawl.Rule lib c t a b → P b) :
    P s := by
  induction h with
  | refl => exact h0
  | tail hab hbc ih =>
    obtain ⟨t, hr⟩ := crawl.rule_of_step hbc
    exact hstep _ _ t hab ih hr

/-- A schedule that runs through is an interleaving. -/
theorem crawl.reaches_of_run (sched : List Nat) {s s' : State W U}
    (h : crawl.run lib c sched s = some s') : crawl.Reaches lib c s s' := by
  induction sched generalizing s with
  | nil =>
    simp only [crawl.run, Option.some.injEq] at h
    subst h
    exact Relation.ReflTransGen.refl
  | cons i is ih =>
    simp only [crawl.run] at h
    cases hi : crawl.stepAt lib c i s with
    | none => simp [hi] at h
    | some s1 =>
      rw [hi] at h
      exact Relation.ReflTransGen.head ⟨i, hi⟩ (ih h)

end Machine

section Claims

variable {W U : Type}

/-! ## The seed of the scenarios -/

/-- The model of `url.Parse` on the seed of the test. -/
theorem neturl.parse_exampleSeed :
    neturl.Parse "https://example.com" = some neturl.exampleSeed := by
  decide

/-- The function `main` on `--url https://example.com --depth 1`: the crawler gets the host
`example.com`, and `crawl` starts on the parsed seed with an empty store. -/
theorem main_example :
    main neturl.lib () 1 "https://example.com" false =
      some ({ host := "example.com", scheme := "https", verbose := false },
            crawl.start () Store.empty neturl.exampleSeed 1) :=
  rfl

/-! ## The completion counter (C1) -/

/-- In every reachable state the counter is the number of live goroutines plus the number
of hrefs skipped by `continue`: line 65 adds one before line 66 parses, and the `continue` of
line 68 starts no goroutine that would take it back. -/
theorem crawl.wg_balance (lib : NetURL U) (c : HTTPFetcher W) (w : W) (store : Store)
    (seed : U) (depth : Int) {s : State W U}
    (h : crawl.Reaches lib c (crawl.start w store seed depth) s) :
    s.wg = s.pool.length + s.skipped := by
  refine h.invariant (P := fun s => s.wg = s.pool.length + s.skipped)
    (by simp [crawl.start]) ?_
  intro a b _ _ ih hr
  cases hr <;> simp_all <;> omega

/-- The number of skipped hrefs never goes down. -/
theorem crawl.skipped_mono (lib : NetURL U) (c : HTTPFetcher W) {s s' : State W U}
    (h : crawl.Reaches lib c s s') : s.skipped ≤ s'.skipped := by
  induction h with
  | refl => exact le_rfl
  | tail _ hbc ih =>
    obtain ⟨_, hr⟩ := crawl.rule_of_step hbc
    cases hr <;> simp_all
    omega

/-- When every href that `Fetch` returns parses, the counter is back at zero once every
goroutine has returned, so `wg.Wait()` returns. -/
theorem crawl.wait_returns_of_parsed_hrefs (lib : NetURL U) (c : HTTPFetcher W)
    (hparse : ∀ w store url urls, (c.Fetch w store url).2.2 = .ok urls →
      ∀ href ∈ urls, lib.Parse href ≠ none)
    (w : W) (store : Store) (seed : U) (depth : Int) {s : State W U}
    (h : crawl.Reaches lib c (crawl.start w store seed depth) s) (hfin : s.finished) :
    s.waitReturns := by
  have hb := crawl.wg_balance lib c w store seed depth h
  have h0 : s.skipped = 0 ∧ ∀ t ∈ s.pool, ∀ href ∈ t.pending, lib.Parse href ≠ none := by
    refine h.invariant (P := fun s => s.skipped = 0 ∧
      ∀ t ∈ s.pool, ∀ href ∈ t.pending, lib.Parse href ≠ none)
      (by simp [crawl.start, Task.pending]) ?_
    intro a b _ _ ih hr
    obtain ⟨ih1, ih2⟩ := ih
    cases hr with
    | @depthExhausted _ pre post url depth hp hd =>
      exact ⟨ih1, fun t ht => ih2 t (by rw [hp]; simp at ht ⊢; tauto)⟩
    | @alreadyVisited _ pre post url depth hp hd hrd =>
      exact ⟨ih1, fun t ht => ih2 t (by rw [hp]; simp at ht ⊢; tauto)⟩
    | @fetching _ pre post url depth hp hd hrd =>
      refine ⟨ih1, fun t ht => ?_⟩
      simp at ht
      rcases ht with ht | rfl | ht
      · exact ih2 t (by rw [hp]; simp; tauto)
      · simp [Task.pending]
      · exact ih2 t (by rw [hp]; simp; tauto)
    | @fetchFailed _ pre post url depth w1 st err hp hf =>
      exact ⟨ih1, fun t ht => ih2 t (by rw [hp]; simp at ht ⊢; tauto)⟩
    | @fetched _ pre post url depth w1 st urls hp hf =>
      refine ⟨ih1, fun t ht => ?_⟩
      simp at ht
      rcases ht with ht | rfl | ht
      · exact ih2 t (by rw [hp]; simp; tauto)
      · exact hparse a.world a.store (lib.Str url) urls (by rw [hf])
      · exact ih2 t (by rw [hp]; simp; tauto)
    | @printed _ pre post url depth urls hp =>
      refine ⟨ih1, fun t ht => ?_⟩
      simp at ht
      rcases ht with ht | rfl | ht
      · exact ih2 t (by rw [hp]; simp; tauto)
      · exact ih2 (Task.emit url depth urls) (by rw [hp]; simp)
      · exact ih2 t (by rw [hp]; simp; tauto)
    | @fannedOut _ pre post url depth hp =>
      exact ⟨ih1, fun t ht => ih2 t (by rw [hp]; simp at ht ⊢; tauto)⟩
    | @skip _ pre post url depth u rest hp hu =>
      have hu' := ih2 (Task.loop url depth (u :: rest)) (by rw [hp]; simp) u
        (by simp [Task.pending])
      simp only [NetURL.ParseRef, Option.map_eq_none'] at hu
      exact absurd hu hu'
    | @spawn _ pre post url depth u rest parsedU hp hu =>
      refine ⟨ih1, fun t ht => ?_⟩
      simp at ht
      rcases ht with ht | rfl | ht | rfl
      · exact ih2 t (by rw [hp]; simp; tauto)
      · intro href hh
        exact ih2 (Task.loop url depth (u :: rest)) (by rw [hp]; simp) href
          (by simp [Task.pending] at hh ⊢; tauto)
      · exact ih2 t (by rw [hp]; simp; tauto)
      · simp [Task.pending]
  simp [State.finished] at hfin
  simp [State.waitReturns, hb, hfin, h0.1]

/-- What `processLink` accepts is the link itself, and it parses. -/
theorem Crawler.processLink_parses (lib : NetURL U) (c : Crawler) (link : String)
    (h : (c.processLink lib link).1 = true) :
    (c.processLink lib link).2 = link ∧ lib.Parse link ≠ none := by
  unfold Crawler.processLink at h ⊢
  cases hp : lib.Parse link with
  | none => simp [hp] at h
  | some r =>
    simp only [hp] at h ⊢
    split_ifs at h ⊢
    simp

/-- The loop over the attributes adds at most one href, one that parses. -/
theorem Crawler.findHref_parses (lib : NetURL U) (c : Crawler) (attr : List html.Attribute)
    (acc : List String) :
    ∀ href ∈ c.findHref lib attr acc, href ∈ acc ∨ lib.Parse href ≠ none := by
  induction attr with
  | nil => intro href h; exact Or.inl h
  | cons a more ih =>
    intro href h
    simp only [Crawler.findHref] at h
    split_ifs at h with hk hv
    · simp only [List.mem_append, List.mem_singleton] at h
      rcases h with h | rfl
      · exact Or.inl h
      · have := Crawler.processLink_parses lib c a.Val hv
        rw [this.1]
        exact Or.inr this.2
    · exact Or.inl h
    · exact ih href h

mutual
/-- Every href that `findLinks` adds to the accumulator parses. -/
theorem Crawler.findLinks_parses (lib : NetURL U) (c : Crawler) :
    ∀ (node : html.Node) (acc : List String),
      ∀ href ∈ c.findLinks lib node acc, href ∈ acc ∨ lib.Parse href ≠ none
  | .mk typ data attr children, acc => by
    intro href h
    simp only [Crawler.findLinks] at h
    rcases Crawler.findLinksFrom_parses lib c children _ href h with h1 | h1
    · split_ifs at h1
      · exact Crawler.findHref_parses lib c attr acc href h1
      · exact Or.inl h1
    · exact Or.inr h1
/-- Every href that the loop over the children adds to the accumulator parses. -/
theorem Crawler.findLinksFrom_parses (lib : NetURL U) (c : Crawler) :
    ∀ (nodes : List html.Node) (acc : List String),
      ∀ href ∈ c.findLinksFrom lib nodes acc, href ∈ acc ∨ lib.Parse href ≠ none
  | [], acc => by
    intro href h
    simp only [Crawler.findLinksFrom] at h
    exact Or.inl h
  | child :: siblings, acc => by
    intro href h
    simp only [Crawler.findLinksFrom] at h
    rcases Crawler.findLinksFrom_parses lib c siblings _ href h with h1 | h1
    · exact Crawler.findLinks_parses lib c child acc href h1
    · exact Or.inr h1
end

/-- With the repository's own `Crawler` as fetcher the `continue` of line 68 is never
taken, because `processLink` has already dropped the hrefs that do not parse: the counter
is back at zero once every goroutine has returned. -/
theorem crawl.wait_returns_with_Crawler {Body : Type} (lib : NetURL U) (web : Web W Body)
    (c : Crawler) (w : W) (store : Store) (seed : U) (depth : Int) {s : State W U}
    (h : crawl.Reaches lib (c.fetcher lib web) (crawl.start w store seed depth) s)
    (hfin : s.finished) : s.waitReturns := by
  refine crawl.wait_returns_of_parsed_hrefs lib (c.fetcher lib web) ?_ w store seed depth
    h hfin
  intro w0 store0 url urls hres href hh
  simp only [Crawler.fetcher, Crawler.Fetch] at hres
  rcases hg : web.Get w0 url with ⟨w1, r⟩
  rw [hg] at hres
  cases r with
  | error err => simp at hres
  | ok body =>
    simp only [Crawler.processPage] at hres
    cases hd : web.ParseHTML body with
    | error err => simp [hd] at hres
    | ok doc =>
      simp only [hd, Except.ok.injEq] at hres
      subst hres
      rcases Crawler.findLinks_parses lib c doc [] href hh with h1 | h1
      · simp at h1
      · exact h1

/-- A list with one goroutine splits in one way only. -/
theorem pool_singleton {pre post : List (Task U)} {t x : Task U}
    (h : [x] = pre ++ t :: post) : pre = [] ∧ t = x ∧ post = [] := by
  cases pre with
  | nil => simp at h; simp [h]
  | cons a pre => simp at h

/-- With one goroutine in the pool the next state is determined. -/
theorem crawl.step_single {lib : NetURL U} {c : HTTPFetcher W} {a b : State W U}
    {t : Task U} (hpool : a.pool = [t]) (h : crawl.Step lib c a b) :
    b = { (crawl.exec lib c a t).state with
      pool := (crawl.exec lib c a t).next.toList ++ (crawl.exec lib c a t).spawned } := by
  obtain ⟨i, hi⟩ := h
  cases i with
  | zero =>
    simp only [crawl.stepAt, hpool, List.getElem?_cons_zero, Option.some.injEq] at hi
    rw [← hi]
    simp
  | succ i => simp [crawl.stepAt, hpool] at hi

/-- C1 fails on the code.  Seed `https://example.com`, depth 0, and a fetcher that returns
the one href ":" (which `url.Parse` refuses: missing protocol scheme): the counter is never
zero, in whatever state the run is, so `wg.Wait()` never returns; and the run does reach
a state in which every goroutine has returned, with the counter at 1. -/
theorem C1_counter_stuck_after_unparseable_href :
    (∀ s, crawl.Reaches neturl.lib (stubCrawler [":"])
        (crawl.start () Store.empty neturl.exampleSeed 0) s → ¬ s.waitReturns) ∧
    (∃ s, crawl.run neturl.lib (stubCrawler [":"]) [0, 0, 0, 0, 0]
        (crawl.start () Store.empty neturl.exampleSeed 0) = some s ∧
      s.finished ∧ s.wg = 1 ∧ s.skipped = 1) := by
  constructor
  · intro s hs
    have hb := crawl.wg_balance _ _ _ _ _ _ hs
    have hparse : neturl.lib.ParseRef neturl.exampleSeed ":" = none := by decide
    have hinv : 1 ≤ s.skipped ∨
        (s.pool = [Task.entry neturl.exampleSeed 0] ∧ s.store = Store.empty) ∨
        s.pool = [Task.fetch neturl.exampleSeed 0] ∨
        s.pool = [Task.emit neturl.exampleSeed 0 [":"]] ∨
        s.pool = [Task.loop neturl.exampleSeed 0 [":"]] := by
      induction hs with
      | refl => exact Or.inr (Or.inl ⟨rfl, rfl⟩)
      | tail hab hbc ih =>
        have hb0 := crawl.wg_balance _ _ _ _ _ _ hab
        rcases ih hb0 with ih | ⟨hpool, hst⟩ | hpool | hpool | hpool
        · exact Or.inl (le_trans ih (crawl.skipped_mono _ _ (Relation.ReflTransGen.single hbc)))
        · rw [crawl.step_single hpool hbc]
          simp [crawl.exec, hst, Store.read, Store.empty]
        · rw [crawl.step_single hpool hbc]
          simp [crawl.exec, stubCrawler]
        · rw [crawl.step_single hpool hbc]
          simp [crawl.exec]
        · rw [crawl.step_single hpool hbc]
          simp [crawl.exec, hparse]
    intro hw
    simp only [State.waitReturns] at hw
    rcases hinv with h1 | ⟨hpool, _⟩ | hpool | hpool | hpool
    · omega
    all_goals
      rw [hpool] at hb
      simp at hb
      omega
  · exact ⟨_, rfl, rfl, rfl, rfl⟩

/-! ## The depth bound (C2) -/

/-- Hops of a run are hops of every longer run. -/
theorem crawl.Hops.mono {lib : NetURL U} {calls calls' : List (FetchCall U)} {seed u : U}
    {n : Nat} (hsub : ∀ x ∈ calls, x ∈ calls') (h : crawl.Hops lib calls seed n u) :
    crawl.Hops lib calls' seed n u := by
  induction h with
  | seed => exact crawl.Hops.seed
  | hop _ hhop ih =>
    obtain ⟨call, hc, hu, urls, hres, href, hh, hp⟩ := hhop
    exact crawl.Hops.hop ih ⟨call, hsub call hc, hu, urls, hres, href, hh, hp⟩

/-- An invariant of the task tree.  A property `Q` of a goroutine, relative to the calls
made so far, that survives further calls, holds of the seed's goroutine, and is handed on
along each edge of the task state machine, holds of every goroutine of every reachable
state, and of every goroutine at the time it called `Fetch`. -/
theorem crawl.tree_invariant {lib : NetURL U} {c : HTTPFetcher W} {w : W}
    {store : Store} {seed : U} {d : Int} (Q : List (FetchCall U) → Task U → Prop)
    (hmono : ∀ calls x t, Q calls t → Q (calls ++ [x]) t)
    (hseed : Q [] (Task.entry seed d))
    (hentry : ∀ calls u k, Q calls (Task.entry u k) → 0 ≤ k → Q calls (Task.fetch u k))
    (hfetch : ∀ calls u k urls, Q calls (Task.fetch u k) →
      Q (calls ++ [{ url := u, depth := k, result := .ok urls }]) (Task.emit u k urls))
    (hemit : ∀ calls u k urls, Q calls (Task.emit u k urls) → Q calls (Task.loop u k urls))
    (hloop : ∀ calls u k href rest, Q calls (Task.loop u k (href :: rest)) →
      Q calls (Task.loop u k rest))
    (hspawn : ∀ calls u k href rest v, Q calls (Task.loop u k (href :: rest)) →
      lib.ParseRef u href = some v → Q calls (Task.entry v (k - 1)))
    {s : State W U} (h : crawl.Reaches lib c (crawl.start w store seed d) s) :
    (∀ t ∈ s.pool, Q s.calls t) ∧
    (∀ call ∈ s.calls, Q s.calls (Task.fetch call.url call.depth)) := by
  refine h.invariant (P := fun s => (∀ t ∈ s.pool, Q s.calls t) ∧
    (∀ call ∈ s.calls, Q s.calls (Task.fetch call.url call.depth)))
    (by simpa [crawl.start] using hseed) ?_
  intro a b _ _ ih hr
  obtain ⟨ih1, ih2⟩ := ih
  cases hr with
  | @depthExhausted _ pre post url depth hp hd =>
    exact ⟨fun t ht => ih1 t (by rw [hp]; simp at ht ⊢; tauto), ih2⟩
  | @alreadyVisited _ pre post url depth hp hd hr =>
    exact ⟨fun t ht => ih1 t (by rw [hp]; simp at ht ⊢; tauto), ih2⟩
  | @fetching _ pre post url depth hp hd hr =>
    refine ⟨fun t ht => ?_, ih2⟩
    simp at ht
    rcases ht with ht | rfl | ht
    · exact ih1 t (by rw [hp]; simp; tauto)
    · exact hentry _ _ _ (ih1 _ (by rw [hp]; simp)) hd
    · exact ih1 t (by rw [hp]; simp; tauto)
  | @fetchFailed _ pre post url depth w st err hp hf =>
    refine ⟨fun t ht => hmono _ _ _ (ih1 t (by rw [hp]; simp at ht ⊢; tauto)), ?_⟩
    intro call hc
    simp at hc
    rcases hc with hc | rfl
    · exact hmono _ _ _ (ih2 call hc)
    · exact hmono _ _ _ (ih1 _ (by rw [hp]; simp))
  | @fetched _ pre post url depth w st urls hp hf =>
    refine ⟨fun t ht => ?_, ?_⟩
    · simp at ht
      rcases ht with ht | rfl | ht
      · exact hmono _ _ _ (ih1 t (by rw [hp]; simp; tauto))
      · exact hfetch _ _ _ _ (ih1 _ (by rw [hp]; simp))
      · exact hmono _ _ _ (ih1 t (by rw [hp]; simp; tauto))
    · intro call hc
      simp at hc
      rcases hc with hc | rfl
      · exact hmono _ _ _ (ih2 call hc)
      · exact hmono _ _ _ (ih1 _ (by rw [hp]; simp))
  | @printed _ pre post url depth urls hp =>
    refine ⟨fun t ht => ?_, ih2⟩
    simp at ht
    rcases ht with ht | rfl | ht
    · exact ih1 t (by rw [hp]; simp; tauto)
    · exact hemit _ _ _ _ (ih1 _ (by rw [hp]; simp))
    · exact ih1 t (by rw [hp]; simp; tauto)
  | @fannedOut _ pre post url depth hp =>
    exact ⟨fun t ht => ih1 t (by rw [hp]; simp at ht ⊢; tauto), ih2⟩
  | @skip _ pre post url depth u rest hp hu =>
    refine ⟨fun t ht => ?_, ih2⟩
    simp at ht
    rcases ht with ht | rfl | ht
    · exact ih1 t (by rw [hp]; simp; tauto)
    · exact hloop _ _ _ u _ (ih1 (Task.loop url depth (u :: rest)) (by rw [hp]; simp))
    · exact ih1 t (by rw [hp]; simp; tauto)
  | @spawn _ pre post url depth u rest parsedU hp hu =>
    refine ⟨fun t ht => ?_, ih2⟩
    simp at ht
    rcases ht with ht | rfl | ht | rfl
    · exact ih1 t (by rw [hp]; simp; tauto)
    · exact hloop _ _ _ u _ (ih1 (Task.loop url depth (u :: rest)) (by rw [hp]; simp))
    · exact ih1 t (by rw [hp]; simp; tauto)
    · exact hspawn _ _ _ u rest _ (ih1 (Task.loop url depth (u :: rest)) (by rw [hp]; simp)) hu

/-- What every goroutine of a run that started at depth `d` satisfies: past the guards
its depth is not negative; each href it still has to handle was returned by a call of
`Fetch` on its URL; and its URL is reached from the seed by `d - depth` link hops. -/
theorem crawl.depth_invariant {lib : NetURL U} {c : HTTPFetcher W} {w : W}
    {store : Store} {seed : U} {d : Int} {s : State W U}
    (h : crawl.Reaches lib c (crawl.start w store seed d) s) :
    (∀ t ∈ s.pool, (t.passedGuards = true → 0 ≤ t.depth) ∧
      (∀ href ∈ t.pending, ∃ call ∈ s.calls, call.url = t.url ∧
        ∃ urls, call.result = .ok urls ∧ href ∈ urls) ∧
      ∃ n : Nat, (n : Int) + t.depth = d ∧ crawl.Hops lib s.calls seed n t.url) ∧
    (∀ call ∈ s.calls, 0 ≤ call.depth ∧
      ∃ n : Nat, (n : Int) + call.depth = d ∧ crawl.Hops lib s.calls seed n call.url) := by
  have key := crawl.tree_invariant
    (fun calls t => (t.passedGuards = true → 0 ≤ t.depth) ∧
      (∀ href ∈ t.pending, ∃ call ∈ calls, call.url = t.url ∧
        ∃ urls, call.result = .ok urls ∧ href ∈ urls) ∧
      ∃ n : Nat, (n : Int) + t.depth = d ∧ crawl.Hops lib calls seed n t.url)
    ?_ ?_ ?_ ?_ ?_ ?_ ?_ h
  · refine ⟨key.1, fun call hc => ?_⟩
    obtain ⟨h1, _, h3⟩ := key.2 call hc
    exact ⟨h1 rfl, h3⟩
  · rintro calls x t ⟨h1, h2, n, hn, hh⟩
    refine ⟨h1, fun href hhref => ?_, n, hn, hh.mono (by simp; tauto)⟩
    obtain ⟨call, hc, hrest⟩ := h2 href hhref
    exact ⟨call, by simp [hc], hrest⟩
  · exact ⟨by simp [Task.passedGuards], by simp [Task.pending],
      0, by simp [Task.depth], crawl.Hops.seed⟩
  · rintro calls u k ⟨_, _, h3⟩ hk
    exact ⟨fun _ => hk, by simp [Task.pending], h3⟩
  · rintro calls u k urls ⟨h1, _, n, hn, hh⟩
    refine ⟨h1, fun href hhref => ?_, n, hn, hh.mono (by simp; tauto)⟩
    exact ⟨{ url := u, depth := k, result := .ok urls }, by simp, rfl, urls, rfl, hhref⟩
  · rintro calls u k urls ⟨h1, h2, h3⟩
    exact ⟨h1, h2, h3⟩
  · rintro calls u k href rest ⟨h1, h2, h3⟩
    exact ⟨h1, fun x hx => h2 x (by simp [Task.pending] at hx ⊢; tauto), h3⟩
  · rintro calls u k href rest v ⟨_, h2, n, hn, hh⟩ hv
    refine ⟨by simp [Task.passedGuards], by simp [Task.pending], n + 1, ?_, ?_⟩
    · simp [Task.depth] at hn ⊢
      omega
    · obtain ⟨call, hc, hu, urls, hres, hmem⟩ := h2 href (by simp [Task.pending])
      exact crawl.Hops.hop hh ⟨call, hc, hu, urls, hres, href, hmem, hv⟩

/-- C2. Depth bound.  In a run of `crawl` that starts at the seed with depth `d`, in any
state of any interleaving, every URL on which `Fetch` has been called is reached from the
seed by a chain of at most `d + 1` link hops, a hop leading from a page on which `Fetch`
was called to one of the hrefs that call returned, resolved against the page's URL.  (The
chain found has `d - depth` hops, `depth ≥ 0` being the depth of the goroutine that made
the call; for `d < 0` there is no call at all.) -/
theorem C2_depth_bound (lib : NetURL U) (c : HTTPFetcher W) (w : W) (store : Store)
    (seed : U) (d : Int) (s : State W U)
    (h : crawl.Reaches lib c (crawl.start w store seed d) s) :
    ∀ call ∈ s.calls, ∃ n : Nat, (n : Int) ≤ d + 1 ∧ crawl.Hops lib s.calls seed n call.url := by
  intro call hc
  obtain ⟨h0, n, hn, hh⟩ := (crawl.depth_invariant h).2 call hc
  exact ⟨n, by omega, hh⟩

/-- C2 on the run of the test (seed `https://example.com`, depth 1, the fake fetcher)
under a schedule that interleaves the two children: `Fetch` is called on the seed, on
`/faq` and on `/home`, each within two hops of the seed. -/
theorem C2_depth_bound_witness :
    ∃ s, crawl.run neturl.lib fakeCrawler
        [0, 0, 0, 0, 0, 0, 1, 0, 1, 0, 0, 1, 0, 1, 1, 0, 0, 1, 3, 0, 1, 0]
        (crawl.start () Store.empty neturl.exampleSeed 1) = some s ∧
      s.calls.map (fun call => neturl.lib.Str call.url) =
        ["https://example.com", "https://example.com/faq", "https://example.com/home"] ∧
      ∀ call ∈ s.calls, ∃ n : Nat, (n : Int) ≤ 1 + 1 ∧
        crawl.Hops neturl.lib s.calls neturl.exampleSeed n call.url :=
  ⟨_, rfl, by decide,
    C2_depth_bound neturl.lib fakeCrawler () Store.empty neturl.exampleSeed 1 _
      (crawl.reaches_of_run
        [0, 0, 0, 0, 0, 0, 1, 0, 1, 0, 0, 1, 0, 1, 1, 0, 0, 1, 3, 0, 1, 0] rfl)⟩

/-! ## The base case (C3) -/

/-- C3. Base case: a goroutine that runs `crawl` with `depth < 0` returns in its first step,
whatever the URL, the store and the fetcher.  The state after the step is the state before
it with the completion counter decremented once and the goroutine gone from the pool: the
fetcher's environment and the list of `Fetch` calls are unchanged (no call), the store is
unchanged, nothing is printed, and no goroutine is added to the pool. -/
theorem C3_negative_depth_returns_at_once (lib : NetURL U) (c : HTTPFetcher W)
    (s : State W U) (i : Nat) (url : U) (depth : Int)
    (ht : s.pool[i]? = some (Task.entry url depth)) (hd : depth < 0) :
    crawl.stepAt lib c i s = some { s with wg := s.wg - 1, pool := s.pool.eraseIdx i } := by
  simp [crawl.stepAt, ht, crawl.exec, crawl.done, hd, List.eraseIdx_eq_take_drop_succ]

/-- C3 at the start state of the test with depth -1: one step ends the run with the store
empty and the counter at zero. -/
theorem C3_negative_depth_witness :
    crawl.stepAt neturl.lib fakeCrawler 0
        (crawl.start () Store.empty neturl.exampleSeed (-1)) =
      some { (crawl.start () Store.empty neturl.exampleSeed (-1) : State Unit neturl.URL) with
        wg := 1 - 1, pool := [] } :=
  C3_negative_depth_returns_at_once neturl.lib fakeCrawler
    (crawl.start () Store.empty neturl.exampleSeed (-1)) 0 neturl.exampleSeed (-1) rfl
    (by decide)

/-! ## Termination (C4) -/

/-- The order on ranks is well founded. -/
theorem rankLt_wf : WellFounded rankLt :=
  WellFounded.prod_lex wellFounded_lt (WellFounded.prod_lex wellFounded_lt wellFounded_lt)

/-- A step takes one goroutine out of the pool and puts back goroutines of smaller rank:
the same goroutine at its next program point, and the child it started. -/
theorem crawl.ranks_cutExpand {lib : NetURL U} {c : HTTPFetcher W} {a b : State W U}
    (h : crawl.Step lib c a b) : Relation.CutExpand rankLt b.ranks a.ranks := by
  obtain ⟨_, hr⟩ := crawl.rule_of_step h
  cases hr with
  | @depthExhausted _ pre post url depth hp hd =>
    refine ⟨0, (Task.entry url depth).rank, by simp, ?_⟩
    simp only [State.ranks, hp, List.map_append, List.map_cons, ← Multiset.coe_add,
      ← Multiset.cons_coe, ← Multiset.singleton_add, Multiset.coe_nil]
    abel
  | @alreadyVisited _ pre post url depth hp hd hr =>
    refine ⟨0, (Task.entry url depth).rank, by simp, ?_⟩
    simp only [State.ranks, hp, List.map_append, List.map_cons, ← Multiset.coe_add,
      ← Multiset.cons_coe, ← Multiset.singleton_add, Multiset.coe_nil]
    abel
  | @fetching _ pre post url depth hp hd hr =>
    refine ⟨{(Task.fetch url depth).rank}, (Task.entry url depth).rank, ?_, ?_⟩
    · simp [rankLt, Task.rank, Prod.lex_def]
      omega
    · simp only [State.ranks, hp, List.map_append, List.map_cons, ← Multiset.coe_add,
        ← Multiset.cons_coe, ← Multiset.singleton_add, Multiset.coe_nil]
      abel
  | @fetchFailed _ pre post url depth w st err hp hf =>
    refine ⟨0, (Task.fetch url depth).rank, by simp, ?_⟩
    simp only [State.ranks, hp, List.map_append, List.map_cons, ← Multiset.coe_add,
      ← Multiset.cons_coe, ← Multiset.singleton_add, Multiset.coe_nil]
    abel
  | @fetched _ pre post url depth w st urls hp hf =>
    refine ⟨{(Task.emit url depth urls).rank}, (Task.fetch url depth).rank, ?_, ?_⟩
    · simp [rankLt, Task.rank, Prod.lex_def]
    · simp only [State.ranks, hp, List.map_append, List.map_cons, ← Multiset.coe_add,
        ← Multiset.cons_coe, ← Multiset.singleton_add, Multiset.coe_nil]
      abel
  | @printed _ pre post url depth urls hp =>
    refine ⟨{(Task.loop url depth urls).rank}, (Task.emit url depth urls).rank, ?_, ?_⟩
    · simp [rankLt, Task.rank, Prod.lex_def]
    · simp only [State.ranks, hp, List.map_append, List.map_cons, ← Multiset.coe_add,
        ← Multiset.cons_coe, ← Multiset.singleton_add, Multiset.coe_nil]
      abel
  | @fannedOut _ pre post url depth hp =>
    refine ⟨0, (Task.loop url depth []).rank, by simp, ?_⟩
    simp only [State.ranks, hp, List.map_append, List.map_cons, ← Multiset.coe_add,
      ← Multiset.cons_coe, ← Multiset.singleton_add, Multiset.coe_nil]
    abel
  | @skip _ pre post url depth u rest hp hu =>
    refine ⟨{(Task.loop url depth rest).rank}, (Task.loop url depth (u :: rest)).rank, ?_, ?_⟩
    · simp [rankLt, Task.rank, Prod.lex_def]
    · simp only [State.ranks, hp, List.map_append, List.map_cons, ← Multiset.coe_add,
        ← Multiset.cons_coe, ← Multiset.singleton_add, Multiset.coe_nil]
      abel
  | @spawn _ pre post url depth u rest parsedU hp hu =>
    refine ⟨{(Task.loop url depth rest).rank} + {(Task.entry parsedU (depth - 1)).rank},
      (Task.loop url depth (u :: rest)).rank, ?_, ?_⟩
    · intro x hx
      simp only [Multiset.mem_add, Multiset.mem_singleton] at hx
      rcases hx with rfl | rfl
      · simp [rankLt, Task.rank, Prod.lex_def]
      · simp [rankLt, Task.rank, Prod.lex_def]
        omega
    · simp only [State.ranks, hp, List.map_append, List.map_cons, ← Multiset.coe_add,
        ← Multiset.cons_coe, ← Multiset.singleton_add, Multiset.coe_nil]
      abel

/-- No run goes on for ever: the step relation, read backwards, is well founded. -/
theorem crawl.step_wf (lib : NetURL U) (c : HTTPFetcher W) :
    WellFounded (fun s' s : State W U => crawl.Step lib c s s') :=
  Subrelation.wf (fun h => crawl.ranks_cutExpand h)
    (InvImage.wf State.ranks rankLt_wf.cutExpand)

/-- As long as a goroutine is left, a step can be taken. -/
theorem crawl.progress (lib : NetURL U) (c : HTTPFetcher W) (s : State W U)
    (h : s.pool ≠ []) : ∃ s', crawl.Step lib c s s' := by
  cases hp : s.pool with
  | nil => exact absurd hp h
  | cons t rest =>
    have hsome : (crawl.stepAt lib c 0 s).isSome := by simp [crawl.stepAt, hp]
    obtain ⟨s', hs'⟩ := Option.isSome_iff_exists.mp hsome
    exact ⟨s', 0, hs'⟩

/-- From every state the run can be taken to its end. -/
theorem crawl.reaches_finished (lib : NetURL U) (c : HTTPFetcher W) (s : State W U) :
    ∃ s', crawl.Reaches lib c s s' ∧ s'.finished := by
  induction s using (crawl.step_wf lib c).induction with
  | _ s ih =>
    by_cases h : s.pool = []
    · exact ⟨s, Relation.ReflTransGen.refl, h⟩
    · obtain ⟨s1, h1⟩ := crawl.progress lib c s h
      obtain ⟨s2, h2, hfin⟩ := ih s1 h1
      exact ⟨s2, Relation.ReflTransGen.head h1 h2, hfin⟩

/-- C4. Termination.  For every fetcher and from every state (so for every depth, whatever
the link graph and whether or not anything is marked visited), no interleaving runs for
ever: the step relation has no infinite chain, and the run can always be taken to a state
in which every goroutine has returned.  The reason is the one the claim gives: a step
starts at most one goroutine, at the entry of `crawl` and with depth exactly one less than
the depth of the goroutine that starts it, and a goroutine with negative depth starts
none. -/
theorem C4_termination (lib : NetURL U) (c : HTTPFetcher W) :
    WellFounded (fun s' s : State W U => crawl.Step lib c s s') ∧
    (∀ s : State W U, ∃ s', crawl.Reaches lib c s s' ∧ s'.finished) ∧
    (∀ (s : State W U) (t child : Task U), child ∈ (crawl.exec lib c s t).spawned →
      child.depth = t.depth - 1 ∧ child.passedGuards = false) := by
  refine ⟨crawl.step_wf lib c, crawl.reaches_finished lib c, ?_⟩
  intro s t child h
  cases t with
  | entry url depth =>
    simp only [crawl.exec, crawl.done] at h
    split_ifs at h <;> simp at h
  | fetch url depth =>
    simp only [crawl.exec, crawl.done] at h
    split at h <;> simp at h
  | emit url depth urls => simp [crawl.exec] at h
  | loop url depth urls =>
    cases urls with
    | nil => simp [crawl.exec, crawl.done] at h
    | cons u rest =>
      simp only [crawl.exec] at h
      split at h
      · simp at h
      · simp at h
        subst h
        simp [Task.depth, Task.passedGuards]

/-! ## The fan-out scenario (C5) -/

/-- What a step can do to an accounted href: the other goroutines and the store keep it
accounted for, unless the goroutine that moved was the one that accounted for it. -/
theorem crawl.Accounted.frame {lib : NetURL U} {pre post : List (Task U)}
    {t0 : Task U} {store : Store} {u : U} {k : Int} {href : String} {v : U}
    (pool' : List (Task U)) (store' : Store)
    (hsub : ∀ x, x ∈ pre ∨ x ∈ post → x ∈ pool')
    (hst : store.VisitedLinks ⊆ store'.VisitedLinks)
    (h : crawl.Accounted lib (pre ++ t0 :: post) store u k href v) :
    crawl.Accounted lib pool' store' u k href v ∨
      (t0.url = u ∧ t0.depth = k ∧ href ∈ t0.pending) ∨
      t0 = Task.entry v (k - 1) ∨ t0 = Task.fetch v (k - 1) := by
  rcases h with ⟨t, ht, h1, h2, h3⟩ | hN | hV | hE | hF
  · simp only [List.mem_append, List.mem_cons] at ht
    rcases ht with ht | rfl | ht
    · exact Or.inl (Or.inl ⟨t, hsub t (Or.inl ht), h1, h2, h3⟩)
    · exact Or.inr (Or.inl ⟨h1, h2, h3⟩)
    · exact Or.inl (Or.inl ⟨t, hsub t (Or.inr ht), h1, h2, h3⟩)
  · exact Or.inl (Or.inr (Or.inl hN))
  · exact Or.inl (Or.inr (Or.inr (Or.inl (hst hV))))
  · simp only [List.mem_append, List.mem_cons] at hE
    rcases hE with hE | hE | hE
    · exact Or.inl (Or.inr (Or.inr (Or.inr (Or.inl (hsub _ (Or.inl hE))))))
    · exact Or.inr (Or.inr (Or.inl hE.symm))
    · exact Or.inl (Or.inr (Or.inr (Or.inr (Or.inl (hsub _ (Or.inr hE))))))
  · simp only [List.mem_append, List.mem_cons] at hF
    rcases hF with hF | hF | hF
    · exact Or.inl (Or.inr (Or.inr (Or.inr (Or.inr (hsub _ (Or.inl hF))))))
    · exact Or.inr (Or.inr (Or.inr hF.symm))
    · exact Or.inl (Or.inr (Or.inr (Or.inr (Or.inr (hsub _ (Or.inr hF))))))

/-- With a fetcher that marks, every href that a call of `Fetch` has returned and that
resolves is accounted for in every reachable state. -/
theorem crawl.children_accounted {lib : NetURL U} {c : HTTPFetcher W} (hmarks : c.Marks)
    {w : W} {store : Store} {seed : U} {d : Int} {s : State W U}
    (h : crawl.Reaches lib c (crawl.start w store seed d) s) :
    ∀ call ∈ s.calls, ∀ urls, call.result = .ok urls → ∀ href ∈ urls, ∀ v,
      lib.ParseRef call.url href = some v →
      crawl.Accounted lib s.pool s.store call.url call.depth href v := by
  refine h.invariant (P := fun s => ∀ call ∈ s.calls, ∀ urls, call.result = .ok urls →
    ∀ href ∈ urls, ∀ v, lib.ParseRef call.url href = some v →
      crawl.Accounted lib s.pool s.store call.url call.depth href v)
    (by simp [crawl.start]) ?_
  intro a b _ _ ih hr
  cases hr with
  | @depthExhausted _ pre post url depth hp hd =>
    intro call hc urls hres href hh v hv
    have hacc := ih call hc urls hres href hh v hv
    rw [hp] at hacc
    rcases hacc.frame (pre ++ post) a.store
      (by intro x hx; simp; tauto) (by simp) with h1 | ⟨_, _, h1⟩ | h1 | h1
    · exact h1
    · simp [Task.pending] at h1
    · simp at h1
      exact Or.inr (Or.inl (by omega))
    · simp at h1
  | @alreadyVisited _ pre post url depth hp hd hrd =>
    intro call hc urls hres href hh v hv
    have hacc := ih call hc urls hres href hh v hv
    rw [hp] at hacc
    rcases hacc.frame (pre ++ post) a.store
      (by intro x hx; simp; tauto) (by simp) with h1 | ⟨_, _, h1⟩ | h1 | h1
    · exact h1
    · simp [Task.pending] at h1
    · simp at h1
      refine Or.inr (Or.inr (Or.inl ?_))
      rw [← h1.1]
      simpa [Store.read] using hrd
    · simp at h1
  | @fetching _ pre post url depth hp hd hrd =>
    intro call hc urls hres href hh v hv
    have hacc := ih call hc urls hres href hh v hv
    rw [hp] at hacc
    rcases hacc.frame (pre ++ Task.fetch url depth :: post) a.store
      (by intro x hx; simp; tauto) (by simp) with h1 | ⟨_, _, h1⟩ | h1 | h1
    · exact h1
    · simp [Task.pending] at h1
    · simp at h1
      refine Or.inr (Or.inr (Or.inr (Or.inr ?_)))
      simp [h1.1, h1.2]
    · simp at h1
  | @fetchFailed _ pre post url depth w1 st err hp hf =>
    have hst : st = a.store.write (lib.Str url) := by
      have := hmarks a.world a.store (lib.Str url)
      rw [hf] at this
      exact this
    subst hst
    intro call hc urls hres href hh v hv
    simp only [List.mem_append, List.mem_singleton] at hc
    rcases hc with hc | rfl
    · have hacc := ih call hc urls hres href hh v hv
      rw [hp] at hacc
      rcases hacc.frame (pre ++ post) (a.store.write (lib.Str url))
        (by intro x hx; simp; tauto) (by simp [Store.write]) with h1 | ⟨_, _, h1⟩ | h1 | h1
      · exact h1
      · simp [Task.pending] at h1
      · simp at h1
      · simp at h1
        refine Or.inr (Or.inr (Or.inl ?_))
        simp [Store.write, h1.1]
    · simp at hres
  | @fetched _ pre post url depth w1 st urls0 hp hf =>
    have hst : st = a.store.write (lib.Str url) := by
      have := hmarks a.world a.store (lib.Str url)
      rw [hf] at this
      exact this
    subst hst
    intro call hc urls hres href hh v hv
    simp only [List.mem_append, List.mem_singleton] at hc
    rcases hc with hc | rfl
    · have hacc := ih call hc urls hres href hh v hv
      rw [hp] at hacc
      rcases hacc.frame (pre ++ Task.emit url depth urls0 :: post)
        (a.store.write (lib.Str url))
        (by intro x hx; simp; tauto) (by simp [Store.write]) with h1 | ⟨_, _, h1⟩ | h1 | h1
      · exact h1
      · simp [Task.pending] at h1
      · simp at h1
      · simp at h1
        refine Or.inr (Or.inr (Or.inl ?_))
        simp [Store.write, h1.1]
    · simp only [Except.ok.injEq] at hres
      subst hres
      exact Or.inl ⟨Task.emit url depth urls0, by simp, rfl, rfl, hh⟩
  | @printed _ pre post url depth urls0 hp =>
    intro call hc urls hres href hh v hv
    have hacc := ih call hc urls hres href hh v hv
    rw [hp] at hacc
    rcases hacc.frame (pre ++ Task.loop url depth urls0 :: post) a.store
      (by intro x hx; simp; tauto) (by simp) with h1 | ⟨h1, h2, h3⟩ | h1 | h1
    · exact h1
    · exact Or.inl ⟨Task.loop url depth urls0, by simp, h1, h2, h3⟩
    · simp at h1
    · simp at h1
  | @fannedOut _ pre post url depth hp =>
    intro call hc urls hres href hh v hv
    have hacc := ih call hc urls hres href hh v hv
    rw [hp] at hacc
    rcases hacc.frame (pre ++ post) a.store
      (by intro x hx; simp; tauto) (by simp) with h1 | ⟨_, _, h1⟩ | h1 | h1
    · exact h1
    · simp [Task.pending] at h1
    · simp at h1
    · simp at h1
  | @skip _ pre post url depth u rest hp hu =>
    intro call hc urls hres href hh v hv
    have hacc := ih call hc urls hres href hh v hv
    rw [hp] at hacc
    rcases hacc.frame (pre ++ Task.loop url depth rest :: post) a.store
      (by intro x hx; simp; tauto) (by simp) with h1 | ⟨h1, h2, h3⟩ | h1 | h1
    · exact h1
    · simp only [Task.pending, List.mem_cons] at h3
      simp only [Task.url] at h1
      rcases h3 with rfl | h3
      · rw [← h1, hu] at hv
        exact Option.noConfusion hv
      · exact Or.inl ⟨Task.loop url depth rest, by simp, h1, h2, h3⟩
    · simp at h1
    · simp at h1
  | @spawn _ pre post url depth u rest parsedU hp hu =>
    intro call hc urls hres href hh v hv
    have hacc := ih call hc urls hres href hh v hv
    rw [hp] at hacc
    rcases hacc.frame
      (pre ++ Task.loop url depth rest :: post ++ [Task.entry parsedU (depth - 1)]) a.store
      (by intro x hx; simp; tauto) (by simp) with h1 | ⟨h1, h2, h3⟩ | h1 | h1
    · exact h1
    · simp only [Task.pending, List.mem_cons] at h3
      simp only [Task.url] at h1
      simp only [Task.depth] at h2
      rcases h3 with rfl | h3
      · rw [← h1, hu] at hv
        simp only [Option.some.injEq] at hv
        subst hv
        refine Or.inr (Or.inr (Or.inr (Or.inl ?_)))
        simp [h2]
      · exact Or.inl ⟨Task.loop url depth rest, by simp, h1, h2, h3⟩
    · simp at h1
    · simp at h1

/-- With a fetcher that marks, the store is what it was at the start plus the URL strings
on which `Fetch` has been called. -/
theorem crawl.store_eq_fetched {lib : NetURL U} {c : HTTPFetcher W} (hmarks : c.Marks)
    {w : W} {store : Store} {seed : U} {d : Int} {s : State W U}
    (h : crawl.Reaches lib c (crawl.start w store seed d) s) :
    s.store.VisitedLinks =
      store.VisitedLinks ∪ (s.calls.map (fun call => lib.Str call.url)).toFinset := by
  refine h.invariant (P := fun s => s.store.VisitedLinks =
      store.VisitedLinks ∪ (s.calls.map (fun call => lib.Str call.url)).toFinset)
    (by simp [crawl.start]) ?_
  intro a b _ _ ih hr
  cases hr with
  | @fetchFailed _ pre post url depth w1 st err hp hf =>
    have hst : st = a.store.write (lib.Str url) := by
      have := hmarks a.world a.store (lib.Str url)
      rw [hf] at this
      exact this
    subst hst
    simp only [Store.write, ih, List.map_append, List.toFinset_append, List.map_cons,
      List.map_nil, List.toFinset_cons, List.toFinset_nil]
    ext x
    simp only [Finset.mem_insert, Finset.mem_union, Finset.not_mem_empty, or_false]
    tauto
  | @fetched _ pre post url depth w1 st urls hp hf =>
    have hst : st = a.store.write (lib.Str url) := by
      have := hmarks a.world a.store (lib.Str url)
      rw [hf] at this
      exact this
    subst hst
    simp only [Store.write, ih, List.map_append, List.toFinset_append, List.map_cons,
      List.map_nil, List.toFinset_cons, List.toFinset_nil]
    ext x
    simp only [Finset.mem_insert, Finset.mem_union, Finset.not_mem_empty, or_false]
    tauto
  | _ => exact ih

/-- With a fetcher that returns the links of a link graph, every call has returned the
links of its page. -/
theorem crawl.results_are_links {lib : NetURL U} {c : HTTPFetcher W}
    {links : String → List String} (hret : c.Returns links)
    {s0 s : State W U} (h : crawl.Reaches lib c s0 s)
    (h0 : ∀ call ∈ s0.calls, call.result = .ok (links (lib.Str call.url))) :
    ∀ call ∈ s.calls, call.result = .ok (links (lib.Str call.url)) := by
  refine h.invariant (P := fun s => ∀ call ∈ s.calls,
    call.result = .ok (links (lib.Str call.url))) h0 ?_
  intro a b _ _ ih hr
  cases hr with
  | @fetchFailed _ pre post url depth w1 st err hp hf =>
    have := hret a.world a.store (lib.Str url)
    rw [hf] at this
    simp at this
  | @fetched _ pre post url depth w1 st urls hp hf =>
    have := hret a.world a.store (lib.Str url)
    rw [hf] at this
    intro call hc
    simp only [List.mem_append, List.mem_singleton] at hc
    rcases hc with hc | rfl
    · exact ih call hc
    · exact this
  | _ => exact ih

/-- Calls of `Fetch` stay in the list of calls. -/
theorem crawl.calls_mono {lib : NetURL U} {c : HTTPFetcher W} {a b : State W U}
    (h : crawl.Step lib c a b) : ∀ call ∈ a.calls, call ∈ b.calls := by
  obtain ⟨_, hr⟩ := crawl.rule_of_step h
  cases hr <;> intro call hc <;> simp [hc]

/-- From an empty store, a run at a depth that is not negative calls `Fetch` on the seed:
in every reachable state the seed's goroutine is alone in the pool and has not called
`Fetch` yet, or the call is in the list. -/
theorem crawl.seed_call_invariant {lib : NetURL U} {c : HTTPFetcher W} {w : W} {seed : U}
    {d : Int} (hd : 0 ≤ d) {s : State W U}
    (h : crawl.Reaches lib c (crawl.start w Store.empty seed d) s) :
    (s.pool = [Task.entry seed d] ∧ s.store = Store.empty) ∨
      s.pool = [Task.fetch seed d] ∨
      ∃ call ∈ s.calls, call.url = seed ∧ call.depth = d := by
  induction h with
  | refl => exact Or.inl ⟨rfl, rfl⟩
  | tail hab hbc ih =>
    rcases ih with ⟨hpool, hst⟩ | hpool | ⟨call, hc, hcall⟩
    · rw [crawl.step_single hpool hbc]
      simp [crawl.exec, not_lt.mpr hd, hst, Store.read, Store.empty]
    · obtain ⟨_, hr⟩ := crawl.rule_of_step hbc
      right; right
      cases hr with
      | @fetchFailed _ pre post url depth w1 st err hp hf =>
        rw [hpool] at hp
        obtain ⟨_, ht, _⟩ := pool_singleton hp
        simp only [Task.fetch.injEq] at ht
        exact ⟨{ url := url, depth := depth, result := .error err }, by simp, ht.1, ht.2⟩
      | @fetched _ pre post url depth w1 st urls hp hf =>
        rw [hpool] at hp
        obtain ⟨_, ht, _⟩ := pool_singleton hp
        simp only [Task.fetch.injEq] at ht
        exact ⟨{ url := url, depth := depth, result := .ok urls }, by simp, ht.1, ht.2⟩
      | @depthExhausted _ pre post url depth hp hd =>
        rw [hpool] at hp
        exact Task.noConfusion (pool_singleton hp).2.1
      | @alreadyVisited _ pre post url depth hp hd hrd =>
        rw [hpool] at hp
        exact Task.noConfusion (pool_singleton hp).2.1
      | @fetching _ pre post url depth hp hd hrd =>
        rw [hpool] at hp
        exact Task.noConfusion (pool_singleton hp).2.1
      | @printed _ pre post url depth urls hp =>
        rw [hpool] at hp
        exact Task.noConfusion (pool_singleton hp).2.1
      | @fannedOut _ pre post url depth hp =>
        rw [hpool] at hp
        exact Task.noConfusion (pool_singleton hp).2.1
      | @skip _ pre post url depth u rest hp hu =>
        rw [hpool] at hp
        exact Task.noConfusion (pool_singleton hp).2.1
      | @spawn _ pre post url depth u rest parsedU hp hu =>
        rw [hpool] at hp
        exact Task.noConfusion (pool_singleton hp).2.1
    · exact Or.inr (Or.inr ⟨call, crawl.calls_mono hbc call hc, hcall⟩)

/-- Once every goroutine of such a run has returned, the call on the seed is in the
list. -/
theorem crawl.seed_is_fetched {lib : NetURL U} {c : HTTPFetcher W} {w : W} {seed : U}
    {d : Int} (hd : 0 ≤ d) {s : State W U}
    (h : crawl.Reaches lib c (crawl.start w Store.empty seed d) s) (hfin : s.finished) :
    ∃ call ∈ s.calls, call.url = seed ∧ call.depth = d := by
  simp only [State.finished] at hfin
  rcases crawl.seed_call_invariant hd h with ⟨hpool, _⟩ | hpool | h3
  · rw [hfin] at hpool; simp at hpool
  · rw [hfin] at hpool; simp at hpool
  · exact h3

/-- A chain of no hops ends at the seed. -/
theorem crawl.Hops.zero_eq {lib : NetURL U} {calls : List (FetchCall U)} {seed u : U}
    (h : crawl.Hops lib calls seed 0 u) : u = seed := by
  cases h
  rfl

/-- A chain of `n + 1` hops is a chain of `n` hops and one more hop. -/
theorem crawl.Hops.succ_inv {lib : NetURL U} {calls : List (FetchCall U)} {seed v : U}
    {n : Nat} (h : crawl.Hops lib calls seed (n + 1) v) :
    ∃ u, crawl.Hops lib calls seed n u ∧ crawl.Hop lib calls u v := by
  cases h with
  | hop h1 h2 => exact ⟨_, h1, h2⟩

/-- C5. Fan-out scenario.  The store is empty at the start and the fetcher marks the URL it
is given and returns the links of a link graph `links` without error.  The run can be
taken to its end, and in whatever order the goroutines run, once all of them have
returned: at depth 0 the store holds exactly the seed's URL; at depth 1 it holds exactly
the seed's URL and the URL of every href that the seed's page returned, resolved against
the seed (hrefs that do not parse are skipped). -/
theorem C5_fan_out (lib : NetURL U) (c : HTTPFetcher W) (links : String → List String)
    (hmarks : c.Marks) (hret : c.Returns links) (w : W) (seed : U) (d : Int) :
    (∃ s, crawl.Reaches lib c (crawl.start w Store.empty seed d) s ∧ s.finished) ∧
    ∀ s, crawl.Reaches lib c (crawl.start w Store.empty seed d) s → s.finished →
      (d = 0 → s.store.VisitedLinks = {lib.Str seed}) ∧
      (d = 1 → s.store.VisitedLinks =
        insert (lib.Str seed)
          (((links (lib.Str seed)).filterMap (lib.ParseRef seed)).map lib.Str).toFinset) := by
  refine ⟨crawl.reaches_finished lib c _, fun s h hfin => ?_⟩
  have hstore := crawl.store_eq_fetched hmarks h
  have hdepth := (crawl.depth_invariant h).2
  have hres := crawl.results_are_links hret h (by simp [crawl.start])
  have hacc := crawl.children_accounted hmarks h
  simp only [Store.empty, Finset.empty_union] at hstore
  constructor
  · intro hd
    subst hd
    obtain ⟨call0, hc0, hu0, _⟩ := crawl.seed_is_fetched le_rfl h hfin
    rw [hstore]
    ext x
    simp only [List.mem_toFinset, List.mem_map, Finset.mem_singleton]
    constructor
    · rintro ⟨call, hc, rfl⟩
      obtain ⟨h0, n, hn, hh⟩ := hdepth call hc
      have hn0 : n = 0 := by omega
      subst hn0
      rw [hh.zero_eq]
    · rintro rfl
      exact ⟨call0, hc0, by rw [hu0]⟩
  · intro hd
    subst hd
    obtain ⟨call0, hc0, hu0, hk0⟩ := crawl.seed_is_fetched (by decide) h hfin
    rw [hstore]
    ext x
    simp only [List.mem_toFinset, List.mem_map, Finset.mem_insert, List.mem_filterMap]
    constructor
    · rintro ⟨call, hc, rfl⟩
      obtain ⟨h0, n, hn, hh⟩ := hdepth call hc
      have hn1 : n = 0 ∨ n = 1 := by omega
      rcases hn1 with rfl | rfl
      · left
        rw [hh.zero_eq]
      · right
        obtain ⟨u, hu, call1, hc1, hcu, urls, hr1, href, hhref, hp⟩ := hh.succ_inv
        have := hu.zero_eq
        subst this
        have hr2 := hres call1 hc1
        rw [hr1, hcu] at hr2
        simp only [Except.ok.injEq] at hr2
        subst hr2
        exact ⟨call.url, ⟨href, hhref, hp⟩, rfl⟩
    · rintro (rfl | ⟨v, ⟨href, hhref, hp⟩, rfl⟩)
      · exact ⟨call0, hc0, by rw [hu0]⟩
      · have hr0 := hres call0 hc0
        rw [hu0] at hr0
        have := hacc call0 hc0 _ hr0 href hhref v (by rw [hu0]; exact hp)
        simp only [State.finished] at hfin
        unfold crawl.Accounted at this
        rw [hstore] at this
        rcases this with ⟨t, ht, _⟩ | hN | hV | hE | hF
        · rw [hfin] at ht; simp at ht
        · rw [hk0] at hN; simp at hN
        · simpa using hV
        · rw [hfin] at hE; simp at hE
        · rw [hfin] at hF; simp at hF

/-- C5 on the test `Test_crawl`: seed `https://example.com`, the fake fetcher, an empty
store.  In every interleaving the store holds 1 URL at depth 0 and 3 URLs at depth 1 once
all goroutines have returned; and both runs do end (a schedule is given for each). -/
theorem C5_fan_out_test_sizes :
    (∀ s, crawl.Reaches neturl.lib fakeCrawler
        (crawl.start () Store.empty neturl.exampleSeed 0) s → s.finished →
      s.store.VisitedLinks.card = 1) ∧
    (∀ s, crawl.Reaches neturl.lib fakeCrawler
        (crawl.start () Store.empty neturl.exampleSeed 1) s → s.finished →
      s.store.VisitedLinks.card = 3) ∧
    (∃ s, crawl.run neturl.lib fakeCrawler [0, 0, 0, 0, 0, 0, 0, 0]
        (crawl.start () Store.empty neturl.exampleSeed 0) = some s ∧ s.finished ∧
      s.store.VisitedLinks = {"https://example.com"}) ∧
    (∃ s, crawl.run neturl.lib fakeCrawler
        [0, 0, 0, 0, 0, 0, 1, 0, 1, 0, 0, 1, 0, 1, 1, 0, 0, 1, 3, 0, 1, 0]
        (crawl.start () Store.empty neturl.exampleSeed 1) = some s ∧ s.finished ∧
      s.store.VisitedLinks =
        {"https://example.com", "https://example.com/home", "https://example.com/faq"}) := by
  refine ⟨fun s hs hfin => ?_, fun s hs hfin => ?_, ⟨_, rfl, rfl, by decide⟩,
    ⟨_, rfl, rfl, by decide⟩⟩
  · rw [((C5_fan_out neturl.lib fakeCrawler (fun _ => ["/home", "/faq"]) (fun _ _ _ => rfl)
      (fun _ _ _ => rfl) () neturl.exampleSeed 0).2 s hs hfin).1 rfl]
    decide
  · rw [((C5_fan_out neturl.lib fakeCrawler (fun _ => ["/home", "/faq"]) (fun _ _ _ => rfl)
      (fun _ _ _ => rfl) () neturl.exampleSeed 1).2 s hs hfin).2 rfl]
    decide

/-! ## The link filter (C6, C7, C8) -/

/-- An href that parses with a scheme and with a host other than the crawler's is
refused: the part of the filter that does reject foreign hosts. -/
theorem Crawler.processLink_foreign_absolute (lib : NetURL U) (c : Crawler) (link : String)
    (r : U) (hp : lib.Parse link = some r) (hs : lib.Scheme r ≠ "")
    (hh : lib.Host r ≠ c.host) : c.processLink lib link = (false, "") := by
  simp [Crawler.processLink, hp, hs, hh]

/-- C6 fails on the code.  With host `example.com`, the absolute link of the test,
`https://examplee.com/home`, is refused, but the scheme-relative link `//other.com/x`,
which parses with the empty scheme and the host `other.com`, is accepted: the test
`r.Scheme == ""` of line 106 lets it through although its host is foreign. -/
theorem C6_scheme_relative_foreign_host_accepted :
    Crawler.processLink neturl.lib { host := "example.com", scheme := "https", verbose := false }
        "https://examplee.com/home" = (false, "") ∧
    (∃ r, neturl.lib.Parse "//other.com/x" = some r ∧ neturl.lib.Host r = "other.com" ∧
      neturl.lib.Scheme r = "") ∧
    Crawler.processLink neturl.lib { host := "example.com", scheme := "https", verbose := false }
        "//other.com/x" = (true, "//other.com/x") ∧
    (neturl.lib.ParseRef neturl.exampleSeed "//other.com/x").map neturl.lib.Str =
      some "https://other.com/x" := by
  refine ⟨by decide, ⟨_, rfl, by decide, by decide⟩, by decide, by decide⟩

/-- C7 as stated fails for the empty seed host: a crawler whose `host` is the empty string
accepts `mailto:someone`, which parses with the scheme `mailto` and an empty host, because
`r.Host == c.host` holds. -/
theorem C7_empty_seed_host_counterexample :
    ∃ r, neturl.lib.Parse "mailto:someone" = some r ∧ neturl.lib.Scheme r ≠ "" ∧
      neturl.lib.Host r = "" ∧
      Crawler.processLink neturl.lib { host := "", scheme := "", verbose := false }
        "mailto:someone" ≠ (false, "") :=
  ⟨_, rfl, by decide, by decide, by decide⟩

/-- The crawler that `main` builds has a host that is not empty: `main` refuses the start
URL otherwise (line 137). -/
theorem main_host_ne_empty {lib : NetURL U} {w : W} {maxDepth : Int} {startUrl : String}
    {verbose : Bool} {c : Crawler} {s : State W U}
    (h : main lib w maxDepth startUrl verbose = some (c, s)) : c.host ≠ "" := by
  unfold main at h
  cases hp : lib.Parse startUrl with
  | none => simp [hp] at h
  | some l =>
    simp only [hp] at h
    split_ifs at h with hbad
    simp only [Option.some.injEq, Prod.mk.injEq] at h
    rw [← h.1]
    exact fun hh => hbad (Or.inr (Or.inl hh))

/-- C7, amended. For every crawler whose seed host is not empty (what `main` guarantees:
it refuses a start URL with an empty host) and every href that parses with a non-empty
scheme and an empty host, `processLink` returns `(false, "")`. -/
theorem C7_scheme_without_host_rejected (lib : NetURL U) (c : Crawler) (link : String)
    (r : U) (hc : c.host ≠ "") (hp : lib.Parse link = some r) (hs : lib.Scheme r ≠ "")
    (hh : lib.Host r = "") : c.processLink lib link = (false, "") := by
  have hne : ¬ lib.Host r = c.host := by
    rw [hh]
    exact fun h => hc h.symm
  simp [Crawler.processLink, hp, hs, hne]

/-- C7 amended, at `mailto:someone` with seed host `example.com`. -/
theorem C7_scheme_without_host_witness :
    Crawler.processLink neturl.lib { host := "example.com", scheme := "https", verbose := false }
      "mailto:someone" = (false, "") :=
  C7_scheme_without_host_rejected neturl.lib
    { host := "example.com", scheme := "https", verbose := false } "mailto:someone"
    { Scheme := "mailto", Opaque := "someone", User := none, Host := "", Path := "",
      ForceQuery := false, RawQuery := "", Fragment := "", OmitHost := false }
    (by decide) (by decide) (by decide) (by decide)

/-- C8. Result shape of the link filter.  For every href and crawler, `processLink`
returns `(true, href)` with the href as given or `(false, "")`; it returns `(true, href)`
exactly when the href parses and its host is the seed host or its scheme is empty; and it
returns `(false, "")` whenever parsing fails. -/
theorem C8_processLink_result_shape (lib : NetURL U) (c : Crawler) (link : String) :
    (c.processLink lib link = (true, link) ∨ c.processLink lib link = (false, "")) ∧
    (c.processLink lib link = (true, link) ↔
      ∃ r, lib.Parse link = some r ∧ (lib.Host r = c.host ∨ lib.Scheme r = "")) ∧
    (lib.Parse link = none → c.processLink lib link = (false, "")) := by
  unfold Crawler.processLink
  cases hp : lib.Parse link with
  | none => simp
  | some r =>
    by_cases h : lib.Host r = c.host ∨ lib.Scheme r = ""
    · simp [h]
    · simp [h]

/-- C8 at the hrefs of the specification, seed host `example.com`: the internal link and
the relative link are returned unchanged, the href that does not parse is refused. -/
theorem C8_processLink_examples :
    Crawler.processLink neturl.lib { host := "example.com", scheme := "https", verbose := false }
        "https://example.com/home" = (true, "https://example.com/home") ∧
    Crawler.processLink neturl.lib { host := "example.com", scheme := "https", verbose := false }
        "../home" = (true, "../home") ∧
    neturl.lib.Parse "not a url `%`" = none ∧
    Crawler.processLink neturl.lib { host := "example.com", scheme := "https", verbose := false }
        "not a url `%`" = (false, "") :=
  ⟨(C8_processLink_result_shape neturl.lib _ "https://example.com/home").2.1.mpr
      ⟨_, rfl, Or.inl (by decide)⟩,
   (C8_processLink_result_shape neturl.lib _ "../home").2.1.mpr ⟨_, rfl, Or.inr (by decide)⟩,
   by decide,
   (C8_processLink_result_shape neturl.lib _ "not a url `%`").2.2 (by decide)⟩

/-! ## No duplicate fetch under sequential access (C9) -/

/-- `Crawler.Fetch` marks the URL it is given, whatever the request returns. -/
theorem Crawler.fetcher_marks {Body : Type} (lib : NetURL U) (web : Web W Body)
    (c : Crawler) : (c.fetcher lib web).Marks := by
  intro w store url
  simp only [Crawler.fetcher, Crawler.Fetch]
  rcases web.Get w url with ⟨w1, r⟩
  cases r <;> rfl

/-- The fake fetcher of the test marks the URL it is given. -/
theorem fakeCrawler_marks : fakeCrawler.Marks := fun _ _ _ => rfl

/-- An interleaving with sequential access is an interleaving. -/
theorem crawl.reaches_of_seqReaches {lib : NetURL U} {c : HTTPFetcher W} {s s' : State W U}
    (h : crawl.SeqReaches lib c s s') : crawl.Reaches lib c s s' := by
  induction h with
  | refl => exact Relation.ReflTransGen.refl
  | tail _ hbc ih =>
    obtain ⟨i, _, _, hi, _⟩ := hbc
    exact Relation.ReflTransGen.tail ih ⟨i, hi⟩

/-- Under sequential access with a fetcher that marks: at most one goroutine stands
between its check and its `Fetch`, its URL is not in the store, every URL fetched is in
the store, the store has only grown, and no URL string was fetched twice or was in the
store at the start. -/
theorem crawl.seq_invariant {lib : NetURL U} {c : HTTPFetcher W} (hmarks : c.Marks)
    {w : W} {store : Store} {seed : U} {d : Int} {s : State W U}
    (h : crawl.SeqReaches lib c (crawl.start w store seed d) s) :
    s.pool.countP Task.atFetch ≤ 1 ∧
    (∀ t ∈ s.pool, t.atFetch = true → lib.Str t.url ∉ s.store.VisitedLinks) ∧
    (∀ call ∈ s.calls, lib.Str call.url ∈ s.store.VisitedLinks) ∧
    store.VisitedLinks ⊆ s.store.VisitedLinks ∧
    (s.calls.map (fun call => lib.Str call.url)).Nodup ∧
    (∀ call ∈ s.calls, lib.Str call.url ∉ store.VisitedLinks) := by
  induction h with
  | refl => simp [crawl.start, Task.atFetch]
  | @tail a b _ hab ih =>
    obtain ⟨j1, j2, j3, j4, j5, j6⟩ := ih
    obtain ⟨i, t, ht, hi, hseq⟩ := hab
    have hr := crawl.rule_of_stepAt ht hi
    cases hr with
    | @depthExhausted _ pre post url depth hp hd =>
      refine ⟨?_, fun x hx => j2 x (by rw [hp]; simp at hx ⊢; tauto), j3, j4, j5, j6⟩
      simp [hp, List.countP_append, List.countP_cons] at j1 ⊢
      omega
    | @alreadyVisited _ pre post url depth hp hd hr =>
      refine ⟨?_, fun x hx => j2 x (by rw [hp]; simp at hx ⊢; tauto), j3, j4, j5, j6⟩
      simp [hp, List.countP_append, List.countP_cons] at j1 ⊢
      omega
    | @fetching _ pre post url depth hp hd hr =>
      have hnone := hseq rfl
      refine ⟨?_, ?_, j3, j4, j5, j6⟩
      · have h1 : pre.countP Task.atFetch = 0 :=
          List.countP_eq_zero.mpr fun x hx => by
            simp [hnone x (by rw [hp]; simp; tauto)]
        have h2 : post.countP Task.atFetch = 0 :=
          List.countP_eq_zero.mpr fun x hx => by
            simp [hnone x (by rw [hp]; simp; tauto)]
        simp [List.countP_append, List.countP_cons, h1, h2, Task.atFetch]
      · intro x hx hf
        simp at hx
        rcases hx with hx | rfl | hx
        · exact j2 x (by rw [hp]; simp; tauto) hf
        · simpa [Store.read, Task.url] using hr
        · exact j2 x (by rw [hp]; simp; tauto) hf
    | @fetchFailed _ pre post url depth w1 st err hp hf =>
      have hst : st = a.store.write (lib.Str url) := by
        have := hmarks a.world a.store (lib.Str url)
        rw [hf] at this
        exact this
      have hnot : lib.Str url ∉ a.store.VisitedLinks :=
        j2 (Task.fetch url depth) (by rw [hp]; simp) rfl
      have hcnt : pre.countP Task.atFetch = 0 ∧ post.countP Task.atFetch = 0 := by
        simp [hp, List.countP_append, List.countP_cons, Task.atFetch] at j1
        omega
      subst hst
      refine ⟨by simp [List.countP_append, hcnt.1, hcnt.2], ?_, ?_, ?_, ?_, ?_⟩
      · intro x hx hfx
        simp at hx
        rcases hx with hx | hx
        · exact absurd hfx (by simpa using List.countP_eq_zero.mp hcnt.1 x hx)
        · exact absurd hfx (by simpa using List.countP_eq_zero.mp hcnt.2 x hx)
      · intro call hc
        simp at hc
        rcases hc with hc | rfl
        · simp [Store.write, j3 call hc]
        · simp [Store.write]
      · intro x hx
        simp [Store.write, j4 hx]
      · rw [List.map_append, List.nodup_append]
        refine ⟨j5, by simp, ?_⟩
        intro x hx1 hx2
        simp at hx1 hx2
        obtain ⟨call, hc, rfl⟩ := hx1
        exact hnot (hx2 ▸ j3 call hc)
      · intro call hc
        simp at hc
        rcases hc with hc | rfl
        · exact j6 call hc
        · exact fun hin => hnot (j4 hin)
    | @fetched _ pre post url depth w1 st urls hp hf =>
      have hst : st = a.store.write (lib.Str url) := by
        have := hmarks a.world a.store (lib.Str url)
        rw [hf] at this
        exact this
      have hnot : lib.Str url ∉ a.store.VisitedLinks :=
        j2 (Task.fetch url depth) (by rw [hp]; simp) rfl
      have hcnt : pre.countP Task.atFetch = 0 ∧ post.countP Task.atFetch = 0 := by
        simp [hp, List.countP_append, List.countP_cons, Task.atFetch] at j1
        omega
      subst hst
      refine ⟨by simp [List.countP_append, List.countP_cons, hcnt.1, hcnt.2, Task.atFetch],
        ?_, ?_, ?_, ?_, ?_⟩
      · intro x hx hfx
        simp at hx
        rcases hx with hx | rfl | hx
        · exact absurd hfx (by simpa using List.countP_eq_zero.mp hcnt.1 x hx)
        · simp [Task.atFetch] at hfx
        · exact absurd hfx (by simpa using List.countP_eq_zero.mp hcnt.2 x hx)
      · intro call hc
        simp at hc
        rcases hc with hc | rfl
        · simp [Store.write, j3 call hc]
        · simp [Store.write]
      · intro x hx
        simp [Store.write, j4 hx]
      · rw [List.map_append, List.nodup_append]
        refine ⟨j5, by simp, ?_⟩
        intro x hx1 hx2
        simp at hx1 hx2
        obtain ⟨call, hc, rfl⟩ := hx1
        exact hnot (hx2 ▸ j3 call hc)
      · intro call hc
        simp at hc
        rcases hc with hc | rfl
        · exact j6 call hc
        · exact fun hin => hnot (j4 hin)
    | @printed _ pre post url depth urls hp =>
      refine ⟨?_, ?_, j3, j4, j5, j6⟩
      · simp [hp, List.countP_append, List.countP_cons, Task.atFetch] at j1 ⊢
        omega
      · intro x hx hfx
        simp at hx
        rcases hx with hx | rfl | hx
        · exact j2 x (by rw [hp]; simp; tauto) hfx
        · simp [Task.atFetch] at hfx
        · exact j2 x (by rw [hp]; simp; tauto) hfx
    | @fannedOut _ pre post url depth hp =>
      refine ⟨?_, fun x hx => j2 x (by rw [hp]; simp at hx ⊢; tauto), j3, j4, j5, j6⟩
      simp [hp, List.countP_append, List.countP_cons] at j1 ⊢
      omega
    | @skip _ pre post url depth u rest hp hu =>
      refine ⟨?_, ?_, j3, j4, j5, j6⟩
      · simp [hp, List.countP_append, List.countP_cons, Task.atFetch] at j1 ⊢
        omega
      · intro x hx hfx
        simp at hx
        rcases hx with hx | rfl | hx
        · exact j2 x (by rw [hp]; simp; tauto) hfx
        · simp [Task.atFetch] at hfx
        · exact j2 x (by rw [hp]; simp; tauto) hfx
    | @spawn _ pre post url depth u rest parsedU hp hu =>
      refine ⟨?_, ?_, j3, j4, j5, j6⟩
      · simp [hp, List.countP_append, List.countP_cons, Task.atFetch] at j1 ⊢
        omega
      · intro x hx hfx
        simp at hx
        rcases hx with hx | rfl | hx | rfl
        · exact j2 x (by rw [hp]; simp; tauto) hfx
        · simp [Task.atFetch] at hfx
        · exact j2 x (by rw [hp]; simp; tauto) hfx
        · simp [Task.atFetch] at hfx

/-- C9. No duplicate fetch under sequential access.  With a fetcher that marks the URL it
is given, starting from any store, in every state of every interleaving in which no
goroutine makes its visited-check while another stands between its check and its `Fetch`:
no URL string has been passed to `Fetch` more than once, and no URL passed to `Fetch`
was in the store when the run started. -/
theorem C9_no_duplicate_fetch_when_sequential (lib : NetURL U) (c : HTTPFetcher W)
    (hmarks : c.Marks) (w : W) (store : Store) (seed : U) (d : Int) (s : State W U)
    (h : crawl.SeqReaches lib c (crawl.start w store seed d) s) :
    (s.calls.map (fun call => lib.Str call.url)).Nodup ∧
    ∀ call ∈ s.calls, lib.Str call.url ∉ store.VisitedLinks :=
  ⟨(crawl.seq_invariant hmarks h).2.2.2.2.1, (crawl.seq_invariant hmarks h).2.2.2.2.2⟩

/-- A schedule that `crawl.seqRun` accepts is an interleaving with sequential access. -/
theorem crawl.seqReaches_of_seqRun {lib : NetURL U} {c : HTTPFetcher W} (sched : List Nat)
    {s s' : State W U} (h : crawl.seqRun lib c sched s = some s') :
    crawl.SeqReaches lib c s s' := by
  induction sched generalizing s with
  | nil =>
    simp only [crawl.seqRun, Option.some.injEq] at h
    subst h
    exact Relation.ReflTransGen.refl
  | cons i is ih =>
    simp only [crawl.seqRun] at h
    cases ht : s.pool[i]? with
    | none => simp [ht] at h
    | some t =>
      simp only [ht] at h
      split_ifs at h with hcond
      cases hi : crawl.stepAt lib c i s with
      | none => simp [hi] at h
      | some s1 =>
        rw [hi] at h
        refine Relation.ReflTransGen.head ⟨i, t, ht, hi, fun hpg x hx => ?_⟩ (ih h)
        by_contra hx'
        exact hcond ⟨hpg, List.any_eq_true.mpr ⟨x, hx, by simpa using hx'⟩⟩

/-- C9 on the run of the test from a store that already holds `/faq`, the goroutines
running one after the other: `Fetch` is called on the seed and on `/home`, once each, and
not on `/faq`. -/
theorem C9_no_duplicate_fetch_witness :
    ∃ s, crawl.seqRun neturl.lib fakeCrawler [0, 0, 0, 0, 0, 0, 1, 0, 0, 0, 0, 0, 0, 0, 0]
        (crawl.start () (Store.empty.write "https://example.com/faq") neturl.exampleSeed 1)
        = some s ∧ s.finished ∧
      s.calls.map (fun call => neturl.lib.Str call.url) =
        ["https://example.com", "https://example.com/home"] ∧
      (s.calls.map (fun call => neturl.lib.Str call.url)).Nodup ∧
      ∀ call ∈ s.calls, neturl.lib.Str call.url ∉
        (Store.empty.write "https://example.com/faq").VisitedLinks :=
  ⟨_, rfl, rfl, by decide,
    C9_no_duplicate_fetch_when_sequential neturl.lib fakeCrawler (fun _ _ _ => rfl) ()
      (Store.empty.write "https://example.com/faq") neturl.exampleSeed 1 _
      (crawl.seqReaches_of_seqRun [0, 0, 0, 0, 0, 0, 1, 0, 0, 0, 0, 0, 0, 0, 0] rfl)⟩

/-- Without sequential access the same URL can be fetched twice (the race between the
check of line 55 and the write inside `Fetch`): with a page that links to `/home` twice,
both children pass the check before either calls `Fetch`. -/
theorem crawl.duplicate_fetch_when_interleaved :
    ∃ s, crawl.run neturl.lib (stubCrawler ["/home", "/home"])
        [0, 0, 0, 0, 0, 0, 0, 1, 0, 1]
        (crawl.start () Store.empty neturl.exampleSeed 1) = some s ∧
      s.calls.map (fun call => neturl.lib.Str call.url) =
        ["https://example.com", "https://example.com/home", "https://example.com/home"] :=
  ⟨_, rfl, by decide⟩

/-! ## A failed fetch (C10) -/

/-- No goroutine, no step. -/
theorem crawl.no_step_of_finished {lib : NetURL U} {c : HTTPFetcher W} {a b : State W U}
    (hfin : a.pool = []) : ¬ crawl.Step lib c a b := by
  rintro ⟨i, hi⟩
  simp [crawl.stepAt, hfin] at hi

/-- A goroutine with `depth ≥ 0` and an unvisited URL whose `Fetch` fails, run through
its two steps: it logs the error and returns. -/
theorem crawl.run_fetch_failure (lib : NetURL U) (c : HTTPFetcher W) (s : State W U)
    (i : Nat) (url : U) (depth : Int) (w : W) (st : Store) (err : String)
    (ht : s.pool[i]? = some (Task.entry url depth)) (hd : 0 ≤ depth)
    (hv : s.store.read (lib.Str url) = false)
    (hf : c.Fetch s.world s.store (lib.Str url) = (w, st, .error err)) :
    crawl.run lib c [i, i] s =
      some { s with
        world := w, store := st, wg := s.wg - 1, pool := s.pool.eraseIdx i,
        calls := s.calls ++ [{ url := url, depth := depth, result := .error err }],
        stderr := s.stderr ++ ["ERROR: error crawling " ++ lib.Str url ++ ", err: " ++ err] } := by
  have hp := pool_split ht
  have hi : i < s.pool.length := by
    by_contra hcon
    rw [List.getElem?_eq_none (not_lt.mp hcon)] at ht
    exact Option.noConfusion ht
  have hlen : (s.pool.take i).length = i := by
    rw [List.length_take]; omega
  have h1 := crawl.stepAt_mid lib c s _ _ _ hp
  rw [hlen] at h1
  simp only [crawl.exec, not_lt.mpr hd, hv, if_false, Bool.false_eq_true] at h1
  have h2 := crawl.stepAt_mid lib c
    { s with pool := s.pool.take i ++ (some (Task.fetch url depth)).toList
                ++ s.pool.drop (i + 1) ++ [] }
    (s.pool.take i) (s.pool.drop (i + 1)) (Task.fetch url depth) (by simp)
  rw [hlen] at h2
  simp only [crawl.run, h1, Option.some_bind, h2]
  simp [crawl.exec, crawl.done, hf, List.eraseIdx_eq_take_drop_succ]

/-- When the fetch of the seed fails, every state of the run has printed nothing, holds
at most the seed's goroutine and a counter that is not negative, and the counter is zero
once the goroutine has returned. -/
theorem crawl.seed_fetch_failure (lib : NetURL U) (c : HTTPFetcher W) (w0 w : W)
    (store0 st : Store) (url : U) (depth : Int) (err : String)
    (hf : c.Fetch w0 store0 (lib.Str url) = (w, st, .error err)) {s : State W U}
    (h : crawl.Reaches lib c (crawl.start w0 store0 url depth) s) :
    s.stdout = [] ∧ s.pool.length ≤ 1 ∧ 0 ≤ s.wg ∧ (s.finished → s.waitReturns) := by
  have hinv : s.stdout = [] ∧
      ((s.wg = 1 ∧ s.world = w0 ∧ s.store = store0 ∧
          (s.pool = [Task.entry url depth] ∨ s.pool = [Task.fetch url depth])) ∨
       (s.wg = 0 ∧ s.pool = [])) := by
    induction h with
    | refl => exact ⟨rfl, Or.inl ⟨rfl, rfl, rfl, Or.inl rfl⟩⟩
    | tail hab hbc ih =>
      obtain ⟨hout, ⟨hwg, hw, hst, hpool | hpool⟩ | ⟨hwg, hpool⟩⟩ := ih
      · rw [crawl.step_single hpool hbc]
        by_cases hd : depth < 0
        · simp [crawl.exec, crawl.done, hd, hout, hwg]
        · by_cases hr : store0.read (lib.Str url) = true
          · simp [crawl.exec, crawl.done, hd, hst, hr, hout, hwg]
          · simp [crawl.exec, crawl.done, hd, hst, hr, hout, hwg, hw]
      · rw [crawl.step_single hpool hbc]
        simp [crawl.exec, crawl.done, hw, hst, hf, hout, hwg]
      · exact absurd hbc (crawl.no_step_of_finished hpool)
  obtain ⟨hout, ⟨hwg, _, _, hpool | hpool⟩ | ⟨hwg, hpool⟩⟩ := hinv <;>
    simp [hout, hwg, hpool, State.finished, State.waitReturns]

/-- The step of a goroutine whose call of `Fetch` fails, in whatever state the call is
made: the error is logged and the goroutine returns. -/
theorem crawl.fetch_failure_step (lib : NetURL U) (c : HTTPFetcher W) (s : State W U)
    (i : Nat) (url : U) (depth : Int) (w : W) (st : Store) (err : String)
    (ht : s.pool[i]? = some (Task.fetch url depth))
    (hf : c.Fetch s.world s.store (lib.Str url) = (w, st, .error err)) :
    crawl.stepAt lib c i s =
      some { s with
        world := w, store := st, wg := s.wg - 1, pool := s.pool.eraseIdx i,
        calls := s.calls ++ [{ url := url, depth := depth, result := .error err }],
        stderr := s.stderr ++ ["ERROR: error crawling " ++ lib.Str url ++ ", err: " ++ err] } := by
  simp [crawl.stepAt, ht, crawl.exec, crawl.done, hf, List.eraseIdx_eq_take_drop_succ]

/-- C10. Local fetch failure.  A goroutine of the pool (position `i`) runs `crawl` with
`depth ≥ 0` on a URL that the store has not visited, and `Fetch` returns an error.  Run
through its two steps, the goroutine logs the error and returns: standard output is
unchanged (no visited-page line), the pool only loses this goroutine (no child), and the
counter is decremented once.  The same holds of the step that calls `Fetch` in whatever
state other goroutines have left when it is taken.  When the goroutine is the seed's, every
state of the run has an empty standard output and a counter that is not negative
(`WaitGroup` does not panic), and the counter is zero once the goroutine has returned. -/
theorem C10_fetch_failure_is_local (lib : NetURL U) (c : HTTPFetcher W) (s : State W U)
    (i : Nat) (url : U) (depth : Int) (w : W) (st : Store) (err : String)
    (ht : s.pool[i]? = some (Task.entry url depth)) (hd : 0 ≤ depth)
    (hv : s.store.read (lib.Str url) = false)
    (hf : c.Fetch s.world s.store (lib.Str url) = (w, st, .error err)) :
    crawl.run lib c [i, i] s =
      some { s with
        world := w, store := st, wg := s.wg - 1, pool := s.pool.eraseIdx i,
        calls := s.calls ++ [{ url := url, depth := depth, result := .error err }],
        stderr := s.stderr ++ ["ERROR: error crawling " ++ lib.Str url ++ ", err: " ++ err] } ∧
    (∀ (s2 : State W U) (j : Nat) (w2 : W) (st2 : Store) (err2 : String),
      s2.pool[j]? = some (Task.fetch url depth) →
      c.Fetch s2.world s2.store (lib.Str url) = (w2, st2, .error err2) →
      crawl.stepAt lib c j s2 =
        some { s2 with
          world := w2, store := st2, wg := s2.wg - 1, pool := s2.pool.eraseIdx j,
          calls := s2.calls ++ [{ url := url, depth := depth, result := .error err2 }],
          stderr := s2.stderr ++
            ["ERROR: error crawling " ++ lib.Str url ++ ", err: " ++ err2] }) ∧
    (∀ w0 store0, s = crawl.start w0 store0 url depth →
      ∀ s', crawl.Reaches lib c s s' →
        s'.stdout = [] ∧ s'.pool.length ≤ 1 ∧ 0 ≤ s'.wg ∧ (s'.finished → s'.waitReturns)) := by
  refine ⟨crawl.run_fetch_failure lib c s i url depth w st err ht hd hv hf,
    fun s2 j w2 st2 err2 h2 hf2 =>
      crawl.fetch_failure_step lib c s2 j url depth w2 st2 err2 h2 hf2, ?_⟩
  intro w0 store0 hs s' hreach
  subst hs
  exact crawl.seed_fetch_failure lib c w0 w store0 st url depth err hf hreach

/-- C10 at the seed `https://example.com` with depth 1, an empty store and a fetcher that
fails: the run of the seed's two steps ends with no goroutine left, the counter at zero and
nothing printed. -/
theorem C10_fetch_failure_witness :
    crawl.run neturl.lib (failingCrawler "no such host") [0, 0]
        (crawl.start () Store.empty neturl.exampleSeed 1) =
      some { world := (), store := Store.empty.write "https://example.com", wg := 1 - 1,
             pool := [], stdout := [],
             stderr := ["ERROR: error crawling https://example.com, err: no such host"],
             calls := [{ url := neturl.exampleSeed, depth := 1,
                         result := .error "no such host" }],
             skipped := 0 } :=
  (C10_fetch_failure_is_local neturl.lib (failingCrawler "no such host")
    (crawl.start () Store.empty neturl.exampleSeed 1) 0 neturl.exampleSeed 1 ()
    (Store.empty.write "https://example.com") "no such host" rfl (by decide) (by decide)
    rfl).1

/-! ## The visited store (C11, C12, C13)

A `Store` of the model is an initialised store: the map is allocated and the mutex is set,
as in `main` (line 144) and in the tests of `write` and `read`. -/

/-- A call never takes a key out of the store. -/
theorem Store.call_grows (s : Store) (call : Store.Call) :
    s.VisitedLinks ⊆ (s.call call).1.VisitedLinks := by
  cases call with
  | write key => simp [Store.call, Store.write]
  | read key => simp [Store.call]

/-- A sequence of calls never takes a key out of the store. -/
theorem Store.calls_grow (s : Store) (calls : List Store.Call) :
    s.VisitedLinks ⊆ (s.calls calls).VisitedLinks := by
  induction calls generalizing s with
  | nil => simp [Store.calls]
  | cons call more ih =>
    exact Finset.Subset.trans (Store.call_grows s call) (ih _)

/-- C11. Mark is sticky.  For every store and key `u`: after `write(u)`, `read(u)` returns
true, and it still returns true after any further sequence of `write` and `read` calls;
the store only grows under such a sequence. -/
theorem C11_mark_is_sticky (s : Store) (u : String) (calls : List Store.Call) :
    (s.write u).read u = true ∧
    ((s.write u).calls calls).read u = true ∧
    s.VisitedLinks ⊆ (s.calls calls).VisitedLinks := by
  refine ⟨by simp [Store.read, Store.write], ?_, Store.calls_grow s calls⟩
  have := Store.calls_grow (s.write u) calls
  simp only [Store.read, decide_eq_true_eq]
  exact this (by simp [Store.write])

/-- C12. Idempotent marking.  For every store and key `u`, `write(u)` twice leaves the
store equal to the store after one `write(u)`, and `read` answers the same for every
key. -/
theorem C12_write_idempotent (s : Store) (u : String) :
    (s.write u).write u = s.write u ∧
    ∀ key, ((s.write u).write u).read key = (s.write u).read key := by
  have h : (s.write u).write u = s.write u := by
    simp [Store.write]
  exact ⟨h, fun key => by rw [h]⟩

/-- C13. Membership query.  For every store and key, `read(key)` returns true exactly
when the key is in `VisitedLinks`, and the call leaves the store as it was.  It is true
for the store that holds `"key"` and false for the empty store, as in `TestStore_read`. -/
theorem C13_read_is_membership (s : Store) (key : String) :
    (s.read key = true ↔ key ∈ s.VisitedLinks) ∧
    (s.call (Store.Call.read key)).1 = s ∧
    (s.call (Store.Call.read key)).2 = some (s.read key) ∧
    Store.read { VisitedLinks := {"key"} } "key" = true ∧
    Store.empty.read "key" = false := by
  refine ⟨by simp [Store.read], rfl, rfl, by decide, by decide⟩

/-! ## Link extraction (C14, C17) -/

/-- The loop over the attributes: the first attribute with key `href` is the only one
looked at; its value is appended when `processLink` accepts it. -/
theorem Crawler.findHref_eq (lib : NetURL U) (c : Crawler) (attr : List html.Attribute)
    (acc : List String) :
    c.findHref lib attr acc =
      acc ++ (((attr.find? fun a => a.Key = "href").map fun a => a.Val).toList.filter
        fun href => (c.processLink lib href).1) := by
  induction attr with
  | nil => simp [Crawler.findHref]
  | cons a more ih =>
    by_cases hk : a.Key = "href"
    · by_cases hv : (c.processLink lib a.Val).1 = true
      · simp [Crawler.findHref, hk, hv, (Crawler.processLink_parses lib c a.Val hv).1]
      · simp [Crawler.findHref, hk, hv]
    · simp [Crawler.findHref, hk, ih]

mutual
/-- What `findLinks` returns: the accumulator, then the accepted first hrefs of the
anchors of the tree in document order. -/
theorem Crawler.findLinks_eq (lib : NetURL U) (c : Crawler) :
    ∀ (node : html.Node) (acc : List String),
      c.findLinks lib node acc =
        acc ++ ((node.preorder.filter html.Node.isAnchor).filterMap
          html.Node.firstHref).filter fun href => (c.processLink lib href).1
  | .mk typ data attr children, acc => by
    rw [Crawler.findLinks, Crawler.findLinksFrom_eq lib c children]
    by_cases ha : typ = html.NodeType.ElementNode ∧ data = "a"
    · simp [ha, html.Node.preorder, html.Node.isAnchor, html.Node.firstHref,
        Crawler.findHref_eq]
      cases hf : (attr.find? fun a => a.Key = "href") <;>
        simp [hf, List.filterMap_cons, html.Node.firstHref, List.filter_cons]
      split_ifs <;> simp
    · simp [ha, html.Node.preorder, html.Node.isAnchor]
/-- What the loop over the children returns: the accumulator, then the accepted first
hrefs of the anchors of the subtrees in document order. -/
theorem Crawler.findLinksFrom_eq (lib : NetURL U) (c : Crawler) :
    ∀ (nodes : List html.Node) (acc : List String),
      c.findLinksFrom lib nodes acc =
        acc ++ (((html.Node.preorderFrom nodes).filter html.Node.isAnchor).filterMap
          html.Node.firstHref).filter fun href => (c.processLink lib href).1
  | [], acc => by simp [Crawler.findLinksFrom, html.Node.preorderFrom]
  | child :: siblings, acc => by
    rw [Crawler.findLinksFrom, Crawler.findLinks_eq lib c child,
      Crawler.findLinksFrom_eq lib c siblings]
    simp [html.Node.preorderFrom, List.filter_append, List.filterMap_append]
end

/-- A list with at most one member that passes a test: the members that pass are the
first one that passes, if any. -/
theorem filter_eq_find_of_length_le_one {α : Type} (p : α → Bool) (l : List α)
    (h : (l.filter p).length ≤ 1) : l.filter p = (l.find? p).toList := by
  rw [← List.filter_head?]
  cases hl : l.filter p with
  | nil => simp
  | cons x xs =>
    rw [hl] at h
    cases xs with
    | nil => simp
    | cons y ys => simp at h

/-- For a node with at most one href attribute, its href values are its first href. -/
theorem html.Node.hrefs_eq_firstHref (n : html.Node) (h : n.hrefs.length ≤ 1) :
    n.hrefs = n.firstHref.toList := by
  cases n with
  | mk typ data attr children =>
    simp only [html.Node.hrefs, html.Node.firstHref, List.length_map] at h ⊢
    rw [filter_eq_find_of_length_le_one _ _ h]
    cases attr.find? fun a => a.Key = "href" <;> simp

/-- On nodes with at most one href attribute each, all hrefs and first hrefs agree. -/
theorem html.flatMap_hrefs_eq (nodes : List html.Node)
    (h : ∀ n ∈ nodes, n.hrefs.length ≤ 1) :
    nodes.flatMap html.Node.hrefs = nodes.filterMap html.Node.firstHref := by
  induction nodes with
  | nil => simp
  | cons n more ih =>
    have h1 := html.Node.hrefs_eq_firstHref n (h n (by simp))
    have h2 := ih fun m hm => h m (by simp [hm])
    rw [List.flatMap_cons, List.filterMap_cons, h1, h2]
    cases n.firstHref <;> simp

/-- C14 as stated fails on the code.  The anchor `<a href="https://other.com/" href="foo">`
carries the href value `foo`, which `processLink` accepts for host `example.com`, but
`findLinks` returns the empty list: the loop of lines 114-122 breaks at the first href
attribute, which is refused. -/
theorem C14_second_href_counterexample :
    html.twoHrefTree.isAnchor = true ∧
    "foo" ∈ html.twoHrefTree.hrefs ∧
    (Crawler.processLink neturl.lib
      { host := "example.com", scheme := "https", verbose := false } "foo").1 = true ∧
    Crawler.acceptedHrefs neturl.lib
      { host := "example.com", scheme := "https", verbose := false } html.twoHrefTree = ["foo"] ∧
    Crawler.findLinks neturl.lib
      { host := "example.com", scheme := "https", verbose := false } html.twoHrefTree [] = [] := by
  refine ⟨by decide, by decide, by decide, by decide, by decide⟩

/-- C14, amended.  For every element tree, `findLinks` started with an empty accumulator
returns exactly the list, in document order (pre-order, depth first, left to right), of the
values of the first href attribute of the tree's anchor elements that `processLink`
accepts for the crawler's host.  When no anchor of the tree carries more than one href
attribute, this is the list of all the href values of the anchors that `processLink`
accepts. -/
theorem C14_findLinks_first_hrefs (lib : NetURL U) (c : Crawler) (node : html.Node) :
    c.findLinks lib node [] = c.acceptedFirstHrefs lib node ∧
    ((∀ n ∈ node.preorder, n.isAnchor = true → n.hrefs.length ≤ 1) →
      c.findLinks lib node [] = c.acceptedHrefs lib node) := by
  have h1 : c.findLinks lib node [] = c.acceptedFirstHrefs lib node := by
    rw [Crawler.findLinks_eq]
    simp [Crawler.acceptedFirstHrefs]
  refine ⟨h1, fun h => ?_⟩
  rw [h1, Crawler.acceptedFirstHrefs, Crawler.acceptedHrefs, html.flatMap_hrefs_eq]
  intro n hn
  simp only [List.mem_filter] at hn
  exact h n hn.1 hn.2

/-- C14 on the tree of `TestCrawler_findLinks` with host `example.com`: no anchor has
more than one href attribute, and the result is `["foo", "/bar/baz"]`, the href values of
the anchors that `processLink` accepts. -/
theorem C14_findLinks_test_tree :
    (∀ n ∈ html.testTree.preorder, n.isAnchor = true → n.hrefs.length ≤ 1) ∧
    Crawler.findLinks neturl.lib
        { host := "example.com", scheme := "https", verbose := false } html.testTree [] =
      Crawler.acceptedHrefs neturl.lib
        { host := "example.com", scheme := "https", verbose := false } html.testTree ∧
    Crawler.findLinks neturl.lib
        { host := "example.com", scheme := "https", verbose := false } html.testTree [] =
      ["foo", "/bar/baz"] :=
  ⟨by decide,
    (C14_findLinks_first_hrefs neturl.lib
      { host := "example.com", scheme := "https", verbose := false } html.testTree).2
      (by decide),
    by decide⟩

/-- C17. The accumulator is a prefix.  For every element tree and every list `acc`,
`findLinks(node, acc)` is `acc` followed by `findLinks(node, [])`: the links already found
are kept as they are, in their order.  And for an anchor only the first href attribute
counts, whether or not the filter accepts it: whatever attributes follow it, the result is
the result for the anchor with that attribute alone. -/
theorem C17_accumulator_stays_in_front (lib : NetURL U) (c : Crawler) (node : html.Node)
    (acc : List String) :
    c.findLinks lib node acc = acc ++ c.findLinks lib node [] ∧
    ∀ (pre post : List html.Attribute) (a : html.Attribute) (children : List html.Node),
      (∀ b ∈ pre, b.Key ≠ "href") → a.Key = "href" →
      c.findLinks lib (html.element "a" (pre ++ a :: post) children) acc =
        c.findLinks lib (html.element "a" [a] children) acc ∧
      c.findHref lib (pre ++ a :: post) acc =
        (if (c.processLink lib a.Val).1 = true then acc ++ [a.Val] else acc) := by
  constructor
  · rw [Crawler.findLinks_eq lib c node acc, Crawler.findLinks_eq lib c node []]
    simp
  · intro pre post a children hpre ha
    have hfind : ((pre ++ a :: post).find? fun b => b.Key = "href") = some a := by
      induction pre with
      | nil => simp [ha]
      | cons b pre ih =>
        have hb : ¬ b.Key = "href" := hpre b (by simp)
        simp only [List.cons_append, List.find?_cons, hb, decide_False]
        exact ih fun x hx => hpre x (by simp [hx])
    have hhref : c.findHref lib (pre ++ a :: post) acc = c.findHref lib [a] acc := by
      rw [Crawler.findHref_eq, Crawler.findHref_eq, hfind]
      simp [ha]
    refine ⟨?_, ?_⟩
    · simp only [html.element, Crawler.findLinks, hhref]
    · rw [hhref]
      by_cases hv : (c.processLink lib a.Val).1 = true
      · simp [Crawler.findHref, ha, hv, (Crawler.processLink_parses lib c a.Val hv).1]
      · simp [Crawler.findHref, ha, hv]

/-- C17 on the anchor with two href attributes and the accumulator `["x"]`: the result is
the accumulator, as for the anchor with the first (refused) href alone. -/
theorem C17_accumulator_witness :
    Crawler.findLinks neturl.lib
      { host := "example.com", scheme := "https", verbose := false } html.twoHrefTree ["x"] =
      ["x"] ++ Crawler.findLinks neturl.lib
      { host := "example.com", scheme := "https", verbose := false } html.twoHrefTree [] ∧
    Crawler.findLinks neturl.lib
      { host := "example.com", scheme := "https", verbose := false } html.twoHrefTree ["x"] = ["x"] :=
  ⟨(C17_accumulator_stays_in_front neturl.lib _ html.twoHrefTree ["x"]).1, by decide⟩

/-! ## Coverage (C15) -/

/-- A chain of no links ends at the seed. -/
theorem crawl.LinkChain.zero_is_seed {lib : NetURL U} {links : String → List String}
    {seed u : U} (h : crawl.LinkChain lib links seed 0 u) : u = seed := by
  cases h
  rfl

/-- A chain of `n + 1` links is a chain of `n` links and one more link. -/
theorem crawl.LinkChain.last_link {lib : NetURL U} {links : String → List String}
    {seed v : U} {n : Nat} (h : crawl.LinkChain lib links seed (n + 1) v) :
    ∃ u href, crawl.LinkChain lib links seed n u ∧ href ∈ links (lib.Str u) ∧
      lib.ParseRef u href = some v := by
  cases h with
  | link hc hh hv => exact ⟨_, _, hc, hh, hv⟩

/-- With a fetcher that marks and returns the links of a link graph, once every goroutine
has returned, every link of a page fetched with a depth of at least 1 is in the store. -/
theorem crawl.links_of_fetched_in_store {lib : NetURL U} {c : HTTPFetcher W}
    {links : String → List String} (hmarks : c.Marks) (hret : c.Returns links)
    {w : W} {store : Store} {seed : U} {d : Int} {s : State W U}
    (h : crawl.Reaches lib c (crawl.start w store seed d) s) (hfin : s.finished) :
    ∀ call ∈ s.calls, 1 ≤ call.depth → ∀ href ∈ links (lib.Str call.url), ∀ v,
      lib.ParseRef call.url href = some v → lib.Str v ∈ s.store.VisitedLinks := by
  intro call hc hdepth href hh v hv
  have hres := crawl.results_are_links hret h (by simp [crawl.start]) call hc
  have hacc := crawl.children_accounted hmarks h call hc _ hres href hh v hv
  simp only [State.finished] at hfin
  rw [hfin] at hacc
  rcases hacc with ⟨t, ht, _⟩ | hneg | hin | hp | hp
  · simp at ht
  · omega
  · exact hin
  · simp at hp
  · simp at hp

/-- C15 as stated fails on the code.  In the link graph seed → `/a`, `/b`; `/a` → `/b`;
`/b` → `/c`, the page `/c` is two links from the seed (seed → `/b` → `/c`).  A run at
depth 2 in which the goroutine that `/a` started for `/b` (depth 0) runs before the one
the seed started for `/b` (depth 1): `/b` is fetched at depth 0, its child `/c` has depth
-1 and returns, and the seed's goroutine for `/b` finds it in the store and returns.  The
crawl ends with `/c` neither in the store nor fetched. -/
theorem C15_diamond_counterexample :
    ∃ s, crawl.run neturl.lib (linkCrawler diamondLinks)
        [0, 0, 0, 0, 0, 0, 0, 0, 0, 0, 0, 1, 1, 1, 1, 1, 0, 0]
        (crawl.start () Store.empty neturl.exampleSeed 2) = some s ∧
      s.finished ∧ s.waitReturns ∧
      (linkCrawler diamondLinks).Marks ∧ (linkCrawler diamondLinks).Returns diamondLinks ∧
      (∃ v, crawl.LinkChain neturl.lib diamondLinks neturl.exampleSeed 2 v ∧
        neturl.lib.Str v = "https://example.com/c") ∧
      "https://example.com/c" ∉ s.store.VisitedLinks ∧
      s.calls.map (fun call => (neturl.lib.Str call.url, call.depth)) =
        [("https://example.com", 2), ("https://example.com/a", 1),
         ("https://example.com/b", 0)] := by
  refine ⟨_, rfl, rfl, rfl, fun _ _ _ => rfl, fun _ _ _ => rfl, ?_, by decide, by decide⟩
  refine ⟨{ neturl.exampleSeed with Path := "/c" }, ?_, by decide⟩
  have hb : crawl.LinkChain neturl.lib diamondLinks neturl.exampleSeed 1
      { neturl.exampleSeed with Path := "/b" } :=
    @crawl.LinkChain.link _ _ _ _ 0 neturl.exampleSeed _ "/b" crawl.LinkChain.seed
      (by decide) (by decide)
  exact @crawl.LinkChain.link _ _ _ _ 1 _ _ "/c" hb (by decide) (by decide)

/-- C15, amended.  For every link graph, every seed and every depth `d ≥ 0`, with a
fetcher that marks the URL it is given and returns the links of the graph, starting from
an empty store and whatever order the goroutines run in, when every goroutine has
returned: every URL reached from the seed by a chain of at most `d` and at most one link
is in the store and has been fetched; and every link of a page that was fetched with a
depth of at least 1 is in the store and has been fetched. -/
theorem C15_coverage_one_link_deep (lib : NetURL U) (c : HTTPFetcher W)
    (links : String → List String) (hmarks : c.Marks) (hret : c.Returns links)
    (w : W) (seed : U) (d : Int) (hd : 0 ≤ d) (s : State W U)
    (h : crawl.Reaches lib c (crawl.start w Store.empty seed d) s) (hfin : s.finished) :
    (∀ (n : Nat) (v : U), crawl.LinkChain lib links seed n v → (n : Int) ≤ d → n ≤ 1 →
      lib.Str v ∈ s.store.VisitedLinks ∧ ∃ call ∈ s.calls, lib.Str call.url = lib.Str v) ∧
    (∀ call ∈ s.calls, 1 ≤ call.depth → ∀ href ∈ links (lib.Str call.url), ∀ v,
      lib.ParseRef call.url href = some v →
      lib.Str v ∈ s.store.VisitedLinks ∧ ∃ next ∈ s.calls, lib.Str next.url = lib.Str v) := by
  have hstore := crawl.store_eq_fetched hmarks h
  have hfetched : ∀ v : U, lib.Str v ∈ s.store.VisitedLinks →
      lib.Str v ∈ s.store.VisitedLinks ∧ ∃ call ∈ s.calls, lib.Str call.url = lib.Str v := by
    intro v hv
    refine ⟨hv, ?_⟩
    rw [hstore] at hv
    simpa [Store.empty] using hv
  have hlinks := crawl.links_of_fetched_in_store hmarks hret h hfin
  obtain ⟨call0, hc0, hu0, hd0⟩ := crawl.seed_is_fetched hd h hfin
  have hseed : lib.Str seed ∈ s.store.VisitedLinks := by
    rw [hstore]
    simp only [Finset.mem_union, List.mem_toFinset, List.mem_map]
    exact Or.inr ⟨call0, hc0, by rw [hu0]⟩
  refine ⟨?_, fun call hc hdepth href hh v hv => hfetched v (hlinks call hc hdepth href hh v hv)⟩
  intro n v hchain hn hn1
  rcases Nat.le_one_iff_eq_zero_or_eq_one.mp hn1 with rfl | rfl
  · rw [hchain.zero_is_seed]
    exact hfetched seed hseed
  · obtain ⟨u, href, hc, hh, hv⟩ := hchain.last_link
    have hu := hc.zero_is_seed
    subst hu
    refine hfetched v (hlinks call0 hc0 (by rw [hd0]; simpa using hn) href ?_ v ?_)
    · rw [hu0]; exact hh
    · rw [hu0]; exact hv

/-- C15 (amended) on the diamond graph at depth 1, the goroutines running one after the
other: the crawl ends, and the seed, `/a` and `/b` are in the store and fetched. -/
theorem C15_coverage_witness :
    ∃ s, crawl.run neturl.lib (linkCrawler diamondLinks)
        [0, 0, 0, 0, 0, 0, 0, 0, 0, 0, 0, 0, 0, 0, 0, 0, 0, 0]
        (crawl.start () Store.empty neturl.exampleSeed 1) = some s ∧
      s.finished ∧
      s.store.VisitedLinks =
        {"https://example.com", "https://example.com/a", "https://example.com/b"} ∧
      ((∀ (n : Nat) (v : neturl.URL),
        crawl.LinkChain neturl.lib diamondLinks neturl.exampleSeed n v →
        (n : Int) ≤ 1 → n ≤ 1 →
        neturl.lib.Str v ∈ s.store.VisitedLinks ∧
          ∃ call ∈ s.calls, neturl.lib.Str call.url = neturl.lib.Str v) ∧
      (∀ call ∈ s.calls, 1 ≤ call.depth →
        ∀ href ∈ diamondLinks (neturl.lib.Str call.url), ∀ v,
        neturl.lib.ParseRef call.url href = some v →
        neturl.lib.Str v ∈ s.store.VisitedLinks ∧
          ∃ next ∈ s.calls, neturl.lib.Str next.url = neturl.lib.Str v)) :=
  ⟨_, rfl, rfl, by decide,
    C15_coverage_one_link_deep neturl.lib (linkCrawler diamondLinks) diamondLinks
      (fun _ _ _ => rfl) (fun _ _ _ => rfl) () neturl.exampleSeed 1 (by decide) _
      (crawl.reaches_of_run [0, 0, 0, 0, 0, 0, 0, 0, 0, 0, 0, 0, 0, 0, 0, 0, 0, 0] rfl) rfl⟩

/-! ## Fetch marks first (C16) -/

/-- The states of a call of `Crawler.Fetch`, point by point: before the write nothing has
changed; at the request the URL is written and the network is untouched; after the
request the store is the one the request found; a returned call has left what
`Crawler.Fetch` gives. -/
theorem Crawler.Fetch.reaches_invariant {Body : Type} (lib : NetURL U) (web : Web W Body)
    (c : Crawler) (w : W) (store : Store) (url : String) (s : Crawler.Fetch.State W Body)
    (h : Crawler.Fetch.Reaches lib web c url (Crawler.Fetch.start w store) s) :
    (s.point = .write → s.world = w ∧ s.store = store) ∧
    (s.point = .get → s.world = w ∧ s.store = store.write url) ∧
    (∀ body, s.point = .processPage body →
      web.Get w url = (s.world, .ok body) ∧ s.store = store.write url) ∧
    (∀ result, s.point = .returned result →
      (s.world, s.store, result) = c.Fetch lib web w store url) := by
  induction h with
  | refl => simp [Crawler.Fetch.start]
  | @tail a b _ hab ih =>
    obtain ⟨i1, i2, i3, i4⟩ := ih
    rcases a with ⟨aw, ast, ap⟩
    cases ap with
    | write =>
      obtain ⟨rfl, rfl⟩ := i1 rfl
      simp only [Crawler.Fetch.step, Option.some.injEq] at hab
      subst hab
      simp
    | get =>
      obtain ⟨h1, h2⟩ := i2 rfl
      simp only at h1 h2
      subst h1 h2
      simp only [Crawler.Fetch.step] at hab
      rcases hg : web.Get aw url with ⟨w1, r⟩
      rw [hg] at hab
      cases r with
      | error err =>
        simp only [Option.some.injEq] at hab
        subst hab
        simp [Crawler.Fetch, hg]
      | ok body =>
        simp only [Option.some.injEq] at hab
        subst hab
        simp
    | processPage body =>
      obtain ⟨h1, h2⟩ := i3 body rfl
      simp only at h1 h2
      simp only [Crawler.Fetch.step, Option.some.injEq] at hab
      subst hab
      simp [Crawler.Fetch, h1, h2]
    | returned result =>
      simp [Crawler.Fetch.step] at hab

/-- C16 as stated fails on the code: a failed URL can be fetched again in the run.  The
seed's page links to `/home` twice and `http.Get` fails for `/home`.  Both goroutines for
`/home` make the visited-check of line 55 before either calls `Fetch`; the first call
fails, and then the second goroutine calls `Fetch` on `/home` again. -/
theorem C16_failed_url_fetched_again :
    ∃ s, crawl.run neturl.lib
        (Crawler.fetcher neturl.lib flakyWeb
          { host := "example.com", scheme := "https", verbose := false })
        [0, 0, 0, 0, 0, 0, 0, 1, 0, 0]
        (crawl.start () Store.empty neturl.exampleSeed 1) = some s ∧
      s.finished ∧
      s.calls.map (fun call => (neturl.lib.Str call.url, call.result.toBool)) =
        [("https://example.com", true), ("https://example.com/home", false),
         ("https://example.com/home", false)] ∧
      s.stderr =
        ["ERROR: error crawling https://example.com/home, err: Get " ++
          "\"https://example.com/home\": dial tcp 93.184.216.34:443: connect: " ++
          "connection refused",
         "ERROR: error crawling https://example.com/home, err: Get " ++
          "\"https://example.com/home\": dial tcp 93.184.216.34:443: connect: " ++
          "connection refused"] :=
  ⟨_, rfl, rfl, by decide, by decide⟩

/-- C16, amended.  For every URL and store, `Crawler.Fetch` records the URL in the
visited store before the request is made.  Statement by statement: the first statement of
the body writes the URL and leaves the network untouched; in every state of the call
from the request on the store is the store before the call with the URL written, so
`read(url)` is true there; the request is made in such a state and leaves the store as it
is; and the call returns, after at most three statements, with the network, the store and
the result that `Crawler.Fetch` gives.  So the URL is in the store afterwards whether
`Fetch` returns links or an error, on the error path of line 80 as well, and membership
of every other key is unchanged.  In a run with sequential access to the store no URL is
passed to `Fetch` twice, so a failed URL is not fetched again; and in every run, a
goroutine that makes its visited-check for a URL after a call of `Fetch` on it returns
without calling `Fetch`. -/
theorem C16_fetch_marks_first {Body : Type} (lib : NetURL U) (web : Web W Body)
    (c : Crawler) (w : W) (store : Store) (url : String) :
    (c.Fetch lib web w store url).2.1 = store.write url ∧
    (c.Fetch lib web w store url).2.1.read url = true ∧
    (∀ key, key ≠ url → (c.Fetch lib web w store url).2.1.read key = store.read key) ∧
    (∀ err, (web.Get w url).2 = .error err →
      c.Fetch lib web w store url = ((web.Get w url).1, store.write url, .error err)) ∧
    (∀ (seed : U) (d : Int) (s : State W U),
      crawl.SeqReaches lib (c.fetcher lib web) (crawl.start w store seed d) s →
      (s.calls.map (fun call => lib.Str call.url)).Nodup) ∧
    (∀ (seed : U) (d : Int) (s : State W U),
      crawl.Reaches lib (c.fetcher lib web) (crawl.start w store seed d) s →
      ∀ call ∈ s.calls, ∀ (v : U) (depth : Int), lib.Str v = lib.Str call.url →
        crawl.exec lib (c.fetcher lib web) s (Task.entry v depth) = crawl.done s) ∧
    Crawler.Fetch.step lib web c url (Crawler.Fetch.start w store) =
      some { world := w, store := store.write url, point := .get } ∧
    (∀ s, Crawler.Fetch.Reaches lib web c url (Crawler.Fetch.start w store) s →
      (s.point = .write → s.world = w ∧ s.store = store) ∧
      (s.point ≠ .write → s.store = store.write url ∧ s.store.read url = true) ∧
      (s.point = .get → s.world = w ∧
        ∃ s1, Crawler.Fetch.step lib web c url s = some s1 ∧
          s1.world = (web.Get w url).1 ∧ s1.store = store.write url) ∧
      (∀ result, s.point = .returned result →
        (s.world, s.store, result) = c.Fetch lib web w store url)) ∧
    Crawler.Fetch.run lib web c url 3 (Crawler.Fetch.start w store) =
      { world := (c.Fetch lib web w store url).1,
        store := (c.Fetch lib web w store url).2.1,
        point := .returned (c.Fetch lib web w store url).2.2 } := by
  have hmarks := Crawler.fetcher_marks lib web c
  have hw : (c.Fetch lib web w store url).2.1 = store.write url := hmarks w store url
  have hread : (store.write url).read url = true := by simp [Store.read, Store.write]
  refine ⟨hw, ?_, ?_, ?_, ?_, ?_, rfl, ?_, ?_⟩
  · rw [hw]
    exact hread
  · intro key hkey
    rw [hw]
    simp [Store.read, Store.write, hkey]
  · intro err herr
    simp only [Crawler.Fetch]
    rcases hg : web.Get w url with ⟨w1, r⟩
    rw [hg] at herr
    simp only at herr
    subst herr
    rfl
  · intro seed d s h
    exact (crawl.seq_invariant hmarks h).2.2.2.2.1
  · intro seed d s h call hc v depth hv
    have hstore := crawl.store_eq_fetched hmarks h
    have hin : lib.Str v ∈ s.store.VisitedLinks := by
      rw [hstore, hv]
      simp only [Finset.mem_union, List.mem_toFinset, List.mem_map]
      exact Or.inr ⟨call, hc, rfl⟩
    simp only [crawl.exec]
    split_ifs with h1 h2
    · rfl
    · rfl
    · simp [Store.read, hin] at h2
  · intro s h
    obtain ⟨i1, i2, i3, i4⟩ := Crawler.Fetch.reaches_invariant lib web c w store url s h
    have hst : s.point ≠ .write → s.store = store.write url := by
      intro hp
      rcases s with ⟨sw, sst, sp⟩
      cases sp with
      | write => exact absurd rfl hp
      | get => exact (i2 rfl).2
      | processPage body => exact (i3 body rfl).2
      | returned result =>
        have := i4 result rfl
        rw [← hw, ← this]
    refine ⟨i1, fun hp => ⟨hst hp, by rw [hst hp]; exact hread⟩, fun hp => ?_, i4⟩
    obtain ⟨h1, h2⟩ := i2 hp
    refine ⟨h1, ?_⟩
    rcases s with ⟨sw, sst, sp⟩
    simp only at hp h1 h2
    subst hp h1 h2
    simp only [Crawler.Fetch.step]
    rcases web.Get sw url with ⟨w1, r⟩
    cases r <;> simp
  · simp only [Crawler.Fetch.run, Crawler.Fetch.step, Crawler.Fetch.start, Crawler.Fetch]
    rcases web.Get w url with ⟨w1, r⟩
    cases r <;> rfl

/-- C16 on the same network.  The call of `Fetch` on `/home` has written the URL when it
makes the request, and returns the error of the request with the URL in the store.  With
sequential access `/home` fails once, the second goroutine for `/home` finds it in the
store and returns, and no URL is fetched twice. -/
theorem C16_fetch_marks_first_witness :
    (Crawler.Fetch.run neturl.lib flakyWeb
        { host := "example.com", scheme := "https", verbose := false }
        "https://example.com/home" 1 (Crawler.Fetch.start () Store.empty) =
      { world := (), store := Store.empty.write "https://example.com/home",
        point := .get }) ∧
    (Crawler.Fetch.run neturl.lib flakyWeb
        { host := "example.com", scheme := "https", verbose := false }
        "https://example.com/home" 3 (Crawler.Fetch.start () Store.empty)).store.read
      "https://example.com/home" = true ∧
    ∃ s, crawl.seqRun neturl.lib
        (Crawler.fetcher neturl.lib flakyWeb
          { host := "example.com", scheme := "https", verbose := false })
        [0, 0, 0, 0, 0, 0, 0, 0, 0]
        (crawl.start () Store.empty neturl.exampleSeed 1) = some s ∧
      s.finished ∧
      s.calls.map (fun call => (neturl.lib.Str call.url, call.result.toBool)) =
        [("https://example.com", true), ("https://example.com/home", false)] ∧
      s.store.read "https://example.com/home" = true ∧
      (s.calls.map (fun call => neturl.lib.Str call.url)).Nodup :=
  ⟨rfl, by decide, _, rfl, rfl, by decide, by decide,
    (C16_fetch_marks_first neturl.lib flakyWeb
      { host := "example.com", scheme := "https", verbose := false } () Store.empty
      "https://example.com").2.2.2.2.1 neturl.exampleSeed 1 _
      (crawl.seqReaches_of_seqRun [0, 0, 0, 0, 0, 0, 0, 0, 0] rfl)⟩

end Claims

end Mscraper
